import Mathlib

/-!
# Verification of the `prio` priority queue (go-priority-queue)

Shallow embedding of `prio.go`: a binary min-heap over a backing sequence of
elements.  Each element supplies a comparison (`Less`) and receives `Index`
callbacks when it is moved.  We model an element as its payload value together
with the full history of `Index` arguments it has received (most recent first),
so that callback behaviour is observable in the model.

Failure behaviour: the Go code performs unchecked slice indexing, so `Pop`,
`Peek` and `Remove` panic with an index-out-of-range runtime error on bad
input.  This is modelled by the `Outcome.indexOutOfRange` result.
-/

namespace Prio

/-- An element of the queue: a payload value (compared by the user-supplied
`Less`) together with the list of all `Index` callback arguments it has
received, most recent first (`notifs.head?` is the last reported index). -/
structure Elem (α : Type) where
  val : α
  notifs : List Nat
deriving DecidableEq

/-- Result of a Go call that can panic: either a normal result or an
index-out-of-range runtime panic. -/
inductive Outcome (β : Type) where
  | ok : β → Outcome β
  | indexOutOfRange : Outcome β
deriving DecidableEq

/-- `h[i].Less(h[j])` of the Go code: compare the payloads at positions `i`
and `j` (all call sites are in range; out of range yields `false`). -/
def lessIdx {α : Type} (less : α → α → Bool) (h : List (Elem α)) (i j : Nat) : Bool :=
  match h[i]?, h[j]? with
  | some a, some b => less a.val b.val
  | _, _ => false

/-- `h[j].Index(j)` of the Go code: record the callback argument `j` in the
notification history of the element currently at position `j`. -/
def notify {α : Type} (h : List (Elem α)) (j : Nat) : List (Elem α) :=
  match h[j]? with
  | some e => h.set j ⟨e.val, j :: e.notifs⟩
  | none => h

/-- `h[i], h[j] = h[j], h[i]` of the Go code. -/
def swap {α : Type} (h : List (Elem α)) (i j : Nat) : List (Elem α) :=
  match h[i]?, h[j]? with
  | some a, some b => (h.set i b).set j a
  | _, _ => h

/-- Child index selected by `down`: the right child `2*i+2` exactly when it is
inside the bound and the left child is not `Less` than it (Go:
`if j2 := j1 + 1; j2 < n && !h[j1].Less(h[j2]) { j = j2 }`). -/
def pickChild {α : Type} (less : α → α → Bool) (h : List (Elem α)) (i n : Nat) : Nat :=
  if 2 * i + 2 < n ∧ lessIdx less h (2 * i + 1) (2 * i + 2) = false then 2 * i + 2
  else 2 * i + 1

/-- `down` of `prio.go`: moves the element at position `i` towards the bottom
of the heap (restricted to positions `< n`) to restore the invariant. -/
def down {α : Type} (less : α → α → Bool) (h : List (Elem α)) (i n : Nat) : List (Elem α) :=
  if n ≤ 2 * i + 1 then notify h i
  else
    let j := pickChild less h i n
    if lessIdx less h i j then notify h i
    else down less (notify (swap h i j) i) j n
termination_by n - i
decreasing_by
  rename_i hn _
  simp only [pickChild]
  split <;> omega

/-- `up` of `prio.go`: moves the element at position `j` towards the top of
the heap to restore the invariant. -/
def up {α : Type} (less : α → α → Bool) (h : List (Elem α)) (j : Nat) : List (Elem α) :=
  let i := (j - 1) / 2
  if i = j ∨ lessIdx less h i j then notify h j
  else up less (notify (swap h i j) j) i
termination_by j
decreasing_by
  rename_i hs
  rw [not_or] at hs
  omega

/-- The loop of `heapify`: runs `down` at positions `m-1, m-2, …, 0`. -/
def heapifyAux {α : Type} (less : α → α → Bool) (n : Nat) :
    List (Elem α) → Nat → List (Elem α)
  | h, 0 => h
  | h, m + 1 => heapifyAux less n (down less h m n) m

/-- `heapify` of `prio.go`: establishes the heap invariant bottom-up. -/
def heapify {α : Type} (less : α → α → Bool) (h : List (Elem α)) : List (Elem α) :=
  heapifyAux less h.length h (h.length / 2)

/-- The initial index-assignment loop of `New`: calls `h[i].Index(i)` for
`i = m-1, …, 0`. -/
def initIdx {α : Type} : List (Elem α) → Nat → List (Elem α)
  | h, 0 => h
  | h, m + 1 => initIdx (notify h m) m

/-- `Queue` of `prio.go`; the zero value is `⟨[]⟩` (a `nil` backing slice). -/
structure Queue (α : Type) where
  h : List (Elem α)
deriving DecidableEq

/-- `New` of `prio.go`: assign each element its index, then heapify. -/
def new {α : Type} (less : α → α → Bool) (x : List (Elem α)) : Queue α :=
  ⟨heapify less (initIdx x x.length)⟩

/-- `Push` of `prio.go`: append the element, then sift it up. -/
def push {α : Type} (less : α → α → Bool) (q : Queue α) (x : Elem α) : Queue α :=
  ⟨up less (q.h ++ [x]) q.h.length⟩

/-- `Pop` of `prio.go`: `x := h[0]` (panics on an empty queue), swap the root
with the last element, sift the new root down within the shrunk bound, then
truncate. -/
def pop {α : Type} (less : α → α → Bool) (q : Queue α) : Outcome (Elem α × Queue α) :=
  match q.h[0]? with
  | none => .indexOutOfRange
  | some x =>
    let n := q.h.length - 1
    let h3 := down less (swap q.h 0 n) 0 n
    .ok (x, ⟨h3.take n⟩)

/-- `Peek` of `prio.go`: return `h[0]` (panics on an empty queue). -/
def peek {α : Type} (q : Queue α) : Outcome (Elem α) :=
  match q.h[0]? with
  | none => .indexOutOfRange
  | some x => .ok x

/-- `Remove` of `prio.go`: `x := h[i]` (panics when `i` is outside
`[0, len)`), and unless `i` is the last index, swap the target with the last
element and restore the invariant with `down` then `up`; finally truncate. -/
def remove {α : Type} (less : α → α → Bool) (q : Queue α) (i : Int) :
    Outcome (Elem α × Queue α) :=
  if i < 0 then .indexOutOfRange
  else
    match q.h[i.toNat]? with
    | none => .indexOutOfRange
    | some x =>
      let k := i.toNat
      let n := q.h.length - 1
      if k = n then .ok (x, ⟨q.h.take n⟩)
      else
        let h4 := up less (down less (swap q.h k n) k n) k
        .ok (x, ⟨h4.take n⟩)

/-- `Len` of `prio.go`. -/
def lenQ {α : Type} (q : Queue α) : Nat :=
  q.h.length

/-- The min-heap invariant of the spec: no element is `Less` than its parent.
(`verify` of the package's tests checks exactly this.) -/
def heapInv {α : Type} (less : α → α → Bool) (h : List (Elem α)) : Prop :=
  ∀ k, k < h.length → 0 < k → lessIdx less h k ((k - 1) / 2) = false

/-- Position `k` holds an element whose most recent `Index` callback argument
is `k` itself. -/
def lastOk {α : Type} (h : List (Elem α)) (k : Nat) : Prop :=
  (h[k]?.map fun e => e.notifs.head?) = some (some k)

/-- Index accuracy: every live element's last reported index is its actual
position. -/
def idxInv {α : Type} (h : List (Elem α)) : Prop :=
  ∀ k, k < h.length → lastOk h k

/-- Payload values of the backing sequence. -/
def vals {α : Type} (h : List (Elem α)) : List α :=
  h.map (·.val)

/-- Queues reachable by sequences of public operations (`New`, `Push`, and
successful `Pop`/`Remove` calls). -/
inductive Reachable {α : Type} (less : α → α → Bool) : Queue α → Prop where
  | new (x : List (Elem α)) : Reachable less (new less x)
  | push {q : Queue α} (x : Elem α) : Reachable less q → Reachable less (push less q x)
  | pop {q q2 : Queue α} {x : Elem α} : Reachable less q →
      pop less q = .ok (x, q2) → Reachable less q2
  | remove {q q2 : Queue α} {x : Elem α} {i : Int} : Reachable less q →
      remove less q i = .ok (x, q2) → Reachable less q2

/-- `k` lies in the subtree rooted at `r` (binary-heap indexing). -/
def isDesc (r k : Nat) : Bool :=
  if k = r then true
  else if k ≤ r then false
  else isDesc r ((k - 1) / 2)
termination_by k
decreasing_by omega

/-- Push each element of a list in order (the "pushing n elements" scenario). -/
def pushAll {α : Type} (less : α → α → Bool) (q : Queue α) : List (Elem α) → Queue α
  | [] => q
  | x :: xs => pushAll less (push less q x) xs

/-- Pop `m` times, collecting the returned elements in order (stopping early
if a pop panics). -/
def popAll {α : Type} (less : α → α → Bool) (q : Queue α) :
    Nat → List (Elem α) × Queue α
  | 0 => ([], q)
  | m + 1 =>
    match pop less q with
    | .ok (x, q2) =>
      let r := popAll less q2 m
      (x :: r.1, r.2)
    | .indexOutOfRange => ([], q)

/-- Instrumented `down`: same computation, also returning how many `Less`
calls and how many `Index` callbacks the Go code performs. -/
def downC {α : Type} (less : α → α → Bool) (h : List (Elem α)) (i n : Nat) :
    List (Elem α) × Nat × Nat :=
  if n ≤ 2 * i + 1 then (notify h i, 0, 1)
  else
    let c1 := if 2 * i + 2 < n then 1 else 0
    let j := pickChild less h i n
    if lessIdx less h i j then (notify h i, c1 + 1, 1)
    else
      let r := downC less (notify (swap h i j) i) j n
      (r.1, c1 + 1 + r.2.1, 1 + r.2.2)
termination_by n - i
decreasing_by
  rename_i hn _
  simp only [pickChild]
  split <;> omega

/-- Instrumented `up`: same computation, also returning how many `Less` calls
and how many `Index` callbacks the Go code performs. -/
def upC {α : Type} (less : α → α → Bool) (h : List (Elem α)) (j : Nat) :
    List (Elem α) × Nat × Nat :=
  let i := (j - 1) / 2
  if i = j then (notify h j, 0, 1)
  else if lessIdx less h i j then (notify h j, 1, 1)
  else
    let r := upC less (notify (swap h i j) j) i
    (r.1, 1 + r.2.1, 1 + r.2.2)
termination_by j
decreasing_by omega

/-- Instrumented `Remove`: same computation as `remove`, also returning how
many `Less` calls and how many `Index` callbacks the Go code performs. -/
def removeC {α : Type} (less : α → α → Bool) (q : Queue α) (i : Int) :
    Outcome (Elem α × Queue α) × Nat × Nat :=
  if i < 0 then (.indexOutOfRange, 0, 0)
  else
    match q.h[i.toNat]? with
    | none => (.indexOutOfRange, 0, 0)
    | some x =>
      let k := i.toNat
      let n := q.h.length - 1
      if k = n then (.ok (x, ⟨q.h.take n⟩), 0, 0)
      else
        let d := downC less (swap q.h k n) k n
        let u := upC less d.1 k
        (.ok (x, ⟨u.1.take n⟩), d.2.1 + u.2.1, d.2.2 + u.2.2)

/-- The strict comparison on naturals, used to instantiate the examples. -/
def natLess : Nat → Nat → Bool :=
  fun a b => a < b

/-- The payload value at position `k`, if any. -/
def valAt {α : Type} (h : List (Elem α)) (k : Nat) : Option α :=
  h[k]?.map (·.val)

end Prio

namespace Prio

section Basic

variable {α : Type} (less : α → α → Bool)

theorem lessIdx_eq_valAt (h : List (Elem α)) (i j : Nat) :
    lessIdx less h i j =
      match valAt h i, valAt h j with
      | some a, some b => less a b
      | _, _ => false := by
  unfold lessIdx valAt
  cases h[i]? <;> cases h[j]? <;> simp

theorem lessIdx_congr {h1 h2 : List (Elem α)} {i j : Nat}
    (hi : valAt h1 i = valAt h2 i) (hj : valAt h1 j = valAt h2 j) :
    lessIdx less h1 i j = lessIdx less h2 i j := by
  rw [lessIdx_eq_valAt, lessIdx_eq_valAt, hi, hj]

@[simp]
theorem length_notify (h : List (Elem α)) (j : Nat) :
    (notify h j).length = h.length := by
  unfold notify
  cases hj : h[j]? <;> simp

theorem getElem?_notify_ne (h : List (Elem α)) {j k : Nat} (hk : k ≠ j) :
    (notify h j)[k]? = h[k]? := by
  unfold notify
  cases hj : h[j]? with
  | none => rfl
  | some e => rw [List.getElem?_set_ne (fun he => hk he.symm)]

theorem getElem?_notify_self (h : List (Elem α)) {j : Nat} {e : Elem α}
    (hj : h[j]? = some e) : (notify h j)[j]? = some ⟨e.val, j :: e.notifs⟩ := by
  unfold notify
  rw [hj]
  have : j < h.length := by
    rcases List.getElem?_eq_some_iff.1 hj with ⟨hlt, _⟩
    exact hlt
  simp [List.getElem?_set_self (by simpa using this)]

@[simp]
theorem valAt_notify (h : List (Elem α)) (j k : Nat) :
    valAt (notify h j) k = valAt h k := by
  rcases eq_or_ne k j with rfl | hne
  · cases hj : h[k]? with
    | none =>
      unfold notify
      rw [hj]
    | some e => simp [valAt, getElem?_notify_self h hj, hj]
  · simp [valAt, getElem?_notify_ne h hne]

@[simp]
theorem lessIdx_notify (h : List (Elem α)) (m i j : Nat) :
    lessIdx less (notify h m) i j = lessIdx less h i j :=
  lessIdx_congr less (valAt_notify h m i) (valAt_notify h m j)

@[simp]
theorem length_swap (h : List (Elem α)) (i j : Nat) :
    (swap h i j).length = h.length := by
  unfold swap
  cases h[i]? <;> cases h[j]? <;> simp

theorem swap_eq {h : List (Elem α)} {i j : Nat} {a b : Elem α}
    (hi : h[i]? = some a) (hj : h[j]? = some b) :
    swap h i j = (h.set i b).set j a := by
  unfold swap
  rw [hi, hj]

theorem notify_eq {h : List (Elem α)} {j : Nat} {e : Elem α}
    (hj : h[j]? = some e) : notify h j = h.set j ⟨e.val, j :: e.notifs⟩ := by
  unfold notify
  rw [hj]

theorem getElem?_swap (h : List (Elem α)) (i j : Nat)
    (hi : i < h.length) (hj : j < h.length) (k : Nat) :
    (swap h i j)[k]? = if k = i then h[j]? else if k = j then h[i]? else h[k]? := by
  rw [swap_eq (List.getElem?_eq_getElem hi) (List.getElem?_eq_getElem hj)]
  rcases eq_or_ne k i with rfl | hki
  · rcases eq_or_ne k j with rfl | hkj
    · rw [List.set_set, List.getElem?_set_self (by simpa using hi)]
      simp
    · rw [List.getElem?_set_ne (fun he => hkj he.symm),
        List.getElem?_set_self (by simpa using hi)]
      simp
  · rcases eq_or_ne k j with rfl | hkj
    · rw [List.getElem?_set_self (by simpa using hj)]
      simp [hki]
    · rw [List.getElem?_set_ne (fun he => hkj he.symm),
        List.getElem?_set_ne (fun he => hki he.symm)]
      simp [hki, hkj]

theorem getElem?_swap_ne (h : List (Elem α)) {i j k : Nat}
    (hki : k ≠ i) (hkj : k ≠ j) : (swap h i j)[k]? = h[k]? := by
  unfold swap
  cases h[i]? <;> cases h[j]? <;>
    simp [List.getElem?_set_ne (fun he => hki he.symm),
      List.getElem?_set_ne (fun he => hkj he.symm)]

theorem valAt_swap (h : List (Elem α)) (i j : Nat)
    (hi : i < h.length) (hj : j < h.length) (k : Nat) :
    valAt (swap h i j) k = if k = i then valAt h j else if k = j then valAt h i
      else valAt h k := by
  unfold valAt
  rw [getElem?_swap h i j hi hj]
  split <;> [rfl; split <;> rfl]

theorem set_of_getElem? {β : Type} {l : List β} {i : Nat} {a : β}
    (hl : l[i]? = some a) : l.set i a = l := by
  apply List.ext_getElem?
  intro n
  rcases eq_or_ne n i with rfl | hne
  · rcases List.getElem?_eq_some_iff.1 hl with ⟨hlt, _⟩
    rw [List.getElem?_set_self (by simpa using hlt), hl]
  · rw [List.getElem?_set_ne (fun he => hne he.symm)]

theorem cons_set_perm {β : Type} : ∀ (t : List β) (j : Nat) (x y : β),
    t[j]? = some y → List.Perm (y :: t.set j x) (x :: t)
  | c :: t, 0, x, y, hy => by
    simp only [List.getElem?_cons_zero, Option.some_inj] at hy
    subst hy
    simpa using List.Perm.swap x c t
  | c :: t, j + 1, x, y, hy => by
    simp only [List.getElem?_cons_succ] at hy
    have ih := cons_set_perm t j x y hy
    exact (List.Perm.swap c y _).trans ((ih.cons c).trans (List.Perm.swap x c t))

theorem swap_perm (h : List (Elem α)) (i j : Nat) : List.Perm (swap h i j) h := by
  cases hi : h[i]? with
  | none =>
    unfold swap
    rw [hi]
  | some a =>
    cases hj : h[j]? with
    | none =>
      unfold swap
      rw [hi, hj]
    | some b =>
      rw [swap_eq hi hj]
      rcases eq_or_ne i j with rfl | hij
      · rw [List.set_set]
        have hab : a = b := by
          rw [hi] at hj
          exact Option.some_inj.1 hj
        subst hab
        rw [set_of_getElem? hi]
      · have h1 : (h.set i b)[j]? = some b := by
          rw [List.getElem?_set_ne (fun he => hij he), hj]
        have p1 := cons_set_perm (h.set i b) j a b h1
        have p2 := cons_set_perm h i b a hi
        exact (p1.trans p2).cons_inv

theorem vals_swap_perm (h : List (Elem α)) (i j : Nat) :
    List.Perm (vals (swap h i j)) (vals h) := by
  unfold vals
  exact List.Perm.map _ (swap_perm h i j)

theorem vals_notify (h : List (Elem α)) (j : Nat) : vals (notify h j) = vals h := by
  unfold notify
  cases hj : h[j]? with
  | none => rfl
  | some e =>
    unfold vals
    rw [List.map_set]
    exact set_of_getElem? (by simp [hj])

end Basic

section Tree

theorem isDesc_self (r : Nat) : isDesc r r = true := by
  unfold isDesc
  simp

theorem isDesc_lt_false {r k : Nat} (hk : k < r) : isDesc r k = false := by
  unfold isDesc
  rw [if_neg (by omega), if_pos (by omega)]

theorem isDesc_step {r k : Nat} (hk : r < k) : isDesc r k = isDesc r ((k - 1) / 2) := by
  conv_lhs => unfold isDesc
  rw [if_neg (by omega), if_neg (by omega)]

theorem isDesc_le {r k : Nat} (hd : isDesc r k = true) : r ≤ k := by
  by_contra hc
  rw [isDesc_lt_false (by omega)] at hd
  exact Bool.false_ne_true hd

theorem isDesc_child {r c : Nat} (hc : c = 2 * r + 1 ∨ c = 2 * r + 2) :
    isDesc r c = true := by
  have h1 : r < c := by omega
  have h2 : (c - 1) / 2 = r := by omega
  rw [isDesc_step h1, h2, isDesc_self]

theorem isDesc_trans {a b : Nat} (hab : isDesc a b = true) :
    ∀ c, isDesc b c = true → isDesc a c = true := by
  intro c
  induction c using Nat.strong_induction_on with
  | _ c ih =>
    intro hbc
    rcases eq_or_ne c b with rfl | hcb
    · exact hab
    · have hbl : b < c := by
        rcases Nat.lt_or_ge b c with hlt | hge
        · exact hlt
        · rw [isDesc_lt_false (by omega)] at hbc
          exact absurd hbc Bool.false_ne_true
      have hstep := isDesc_step hbl
      rw [hstep] at hbc
      have hac : a < c := by
        have := isDesc_le hab
        omega
      rw [isDesc_step hac]
      exact ih ((c - 1) / 2) (by omega) hbc

theorem isDesc_zero : ∀ k, isDesc 0 k = true := by
  intro k
  induction k using Nat.strong_induction_on with
  | _ k ih =>
    rcases Nat.eq_zero_or_pos k with rfl | hk
    · exact isDesc_self 0
    · rw [isDesc_step hk]
      exact ih ((k - 1) / 2) (by omega)

theorem isDesc_sibling (i : Nat) {j s : Nat}
    (hjs : (j = 2 * i + 1 ∧ s = 2 * i + 2) ∨ (j = 2 * i + 2 ∧ s = 2 * i + 1)) :
    isDesc j s = false := by
  rcases hjs with ⟨hj, hs⟩ | ⟨hj, hs⟩
  · have h1 : j < s := by omega
    have h2 : (s - 1) / 2 = i := by omega
    rw [isDesc_step h1, h2, isDesc_lt_false (by omega)]
  · exact isDesc_lt_false (by omega)

theorem isDesc_ne_of_false {r k : Nat} (hd : isDesc r k = false) : k ≠ r := by
  intro he
  rw [he, isDesc_self] at hd
  exact Bool.noConfusion hd

end Tree

section Frames

variable {α : Type} (less : α → α → Bool)

theorem pickChild_lt (h : List (Elem α)) {i n : Nat} (hn : ¬ n ≤ 2 * i + 1) :
    i < pickChild less h i n ∧ pickChild less h i n < n ∧
      (pickChild less h i n = 2 * i + 1 ∨ pickChild less h i n = 2 * i + 2) := by
  unfold pickChild
  split <;> omega

theorem down_eq_stop1 {h : List (Elem α)} {i n : Nat} (hn : n ≤ 2 * i + 1) :
    down less h i n = notify h i := by
  rw [down]
  exact if_pos hn

theorem down_eq_stop2 {h : List (Elem α)} {i n : Nat} (hn : ¬ n ≤ 2 * i + 1)
    (hl : lessIdx less h i (pickChild less h i n) = true) :
    down less h i n = notify h i := by
  rw [down, if_neg hn]
  exact if_pos hl

theorem down_eq_rec {h : List (Elem α)} {i n : Nat} (hn : ¬ n ≤ 2 * i + 1)
    (hl : lessIdx less h i (pickChild less h i n) = false) :
    down less h i n =
      down less (notify (swap h i (pickChild less h i n)) i) (pickChild less h i n) n := by
  rw [down, if_neg hn]
  exact if_neg (by rw [hl]; exact Bool.false_ne_true)

theorem up_eq_stop {h : List (Elem α)} {j : Nat}
    (hc : (j - 1) / 2 = j ∨ lessIdx less h ((j - 1) / 2) j = true) :
    up less h j = notify h j := by
  rw [up]
  exact if_pos hc

theorem up_eq_rec {h : List (Elem α)} {j : Nat}
    (hc : ¬ ((j - 1) / 2 = j ∨ lessIdx less h ((j - 1) / 2) j = true)) :
    up less h j = up less (notify (swap h ((j - 1) / 2) j) j) ((j - 1) / 2) := by
  rw [up]
  exact if_neg hc

theorem down_length (h : List (Elem α)) (i n : Nat) :
    (down less h i n).length = h.length := by
  induction h, i, n using down.induct less with
  | case1 h i n hn => rw [down_eq_stop1 less hn, length_notify]
  | case2 h i n hn j hj => rw [down_eq_stop2 less hn hj, length_notify]
  | case3 h i n hn j hj ih =>
    rw [down_eq_rec less hn (Bool.not_eq_true _ ▸ hj), ih, length_notify, length_swap]

theorem up_length (h : List (Elem α)) (j : Nat) :
    (up less h j).length = h.length := by
  induction h, j using up.induct less with
  | case1 h j i hc => rw [up_eq_stop less hc, length_notify]
  | case2 h j i hc ih => rw [up_eq_rec less hc, ih, length_notify, length_swap]

theorem down_frame (h : List (Elem α)) (i n : Nat) :
    ∀ k, k ≠ i → (isDesc i k = false ∨ n ≤ k) → (down less h i n)[k]? = h[k]? := by
  induction h, i, n using down.induct less with
  | case1 h i n hn =>
    intro k hk _
    rw [down_eq_stop1 less hn]
    exact getElem?_notify_ne h hk
  | case2 h i n hn j hj =>
    intro k hk _
    rw [down_eq_stop2 less hn hj]
    exact getElem?_notify_ne h hk
  | case3 h i n hn j hj ih =>
    intro k hk hor
    rw [down_eq_rec less hn (Bool.not_eq_true _ ▸ hj)]
    have hjb := pickChild_lt less h hn
    have hjdef : pickChild less h i n = j := rfl
    rw [hjdef] at hjb
    rw [hjdef]
    have hkj : k ≠ j := by
      rcases hor with hd | hge
      · intro he
        subst he
        rw [isDesc_child (by omega)] at hd
        exact Bool.noConfusion hd
      · omega
    have hdj : isDesc j k = false ∨ n ≤ k := by
      rcases hor with hd | hge
      · left
        cases hdjk : isDesc j k with
        | false => rfl
        | true =>
          rw [isDesc_trans (isDesc_child (by omega)) k hdjk] at hd
          exact Bool.noConfusion hd
      · right
        exact hge
    rw [ih k hkj hdj, getElem?_notify_ne _ hk, getElem?_swap_ne h hk hkj]

theorem up_frame (h : List (Elem α)) (j : Nat) :
    ∀ k, isDesc k j = false → (up less h j)[k]? = h[k]? := by
  induction h, j using up.induct less with
  | case1 h j i hc =>
    intro k hk
    rw [up_eq_stop less hc]
    exact getElem?_notify_ne h (isDesc_ne_of_false hk).symm
  | case2 h j i hc ih =>
    intro k hk
    rw [up_eq_rec less hc]
    rw [not_or] at hc
    have hij : isDesc ((j - 1) / 2) j = true := by
      apply isDesc_child
      have hne : (j - 1) / 2 ≠ j := hc.1
      omega
    have hki : isDesc k ((j - 1) / 2) = false := by
      cases hd : isDesc k ((j - 1) / 2) with
      | false => rfl
      | true =>
        rw [isDesc_trans hd j hij] at hk
        exact Bool.noConfusion hk
    have hkj : k ≠ j := (isDesc_ne_of_false hk).symm
    have hki2 : k ≠ (j - 1) / 2 := (isDesc_ne_of_false hki).symm
    rw [ih k hki, getElem?_notify_ne _ hkj, getElem?_swap_ne h hki2 hkj]

end Frames

end Prio


namespace Prio

section Order

variable {α : Type} (less : α → α → Bool)

theorem lessIdx_ext {h1 h2 : List (Elem α)} {i1 j1 i2 j2 : Nat}
    (hi : valAt h1 i1 = valAt h2 i2) (hj : valAt h1 j1 = valAt h2 j2) :
    lessIdx less h1 i1 j1 = lessIdx less h2 i2 j2 := by
  rw [lessIdx_eq_valAt, lessIdx_eq_valAt, hi, hj]

theorem less_irrefl (hasym : ∀ a b, less a b = true → less b a = false) (a : α) :
    less a a = false := by
  cases hl : less a a with
  | false => rfl
  | true => rw [← hl]; exact hasym a a hl

theorem less_trans
    (hasym : ∀ a b, less a b = true → less b a = false)
    (hneg : ∀ a b c, less a b = false → less b c = false → less a c = false)
    {a b c : α} (hab : less a b = true) (hbc : less b c = true) :
    less a c = true := by
  cases hac : less a c with
  | true => rfl
  | false =>
    have hcb : less c b = false := hasym b c hbc
    rw [hneg a c b hac hcb] at hab
    exact Bool.noConfusion hab

theorem valAt_isSome {h : List (Elem α)} {k : Nat} (hk : k < h.length) :
    ∃ a, valAt h k = some a := by
  unfold valAt
  rw [List.getElem?_eq_getElem hk]
  exact ⟨_, rfl⟩

theorem lessIdx_irrefl (hasym : ∀ a b, less a b = true → less b a = false)
    {h : List (Elem α)} {a : Nat} (ha : a < h.length) :
    lessIdx less h a a = false := by
  obtain ⟨x, hx⟩ := valAt_isSome ha
  rw [lessIdx_eq_valAt, hx]
  exact less_irrefl less hasym x

theorem lessIdx_asym (hasym : ∀ a b, less a b = true → less b a = false)
    {h : List (Elem α)} {i j : Nat} (hi : i < h.length) (hj : j < h.length)
    (hl : lessIdx less h i j = true) : lessIdx less h j i = false := by
  obtain ⟨x, hx⟩ := valAt_isSome hi
  obtain ⟨y, hy⟩ := valAt_isSome hj
  rw [lessIdx_eq_valAt, hx, hy] at hl
  rw [lessIdx_eq_valAt, hx, hy]
  exact hasym x y hl

theorem lessIdx_negtrans
    (hneg : ∀ a b c, less a b = false → less b c = false → less a c = false)
    {h : List (Elem α)} {a b c : Nat}
    (ha : a < h.length) (hb : b < h.length) (hc : c < h.length)
    (h1 : lessIdx less h a b = false) (h2 : lessIdx less h b c = false) :
    lessIdx less h a c = false := by
  obtain ⟨x, hx⟩ := valAt_isSome ha
  obtain ⟨y, hy⟩ := valAt_isSome hb
  obtain ⟨z, hz⟩ := valAt_isSome hc
  rw [lessIdx_eq_valAt, hx, hy] at h1
  rw [lessIdx_eq_valAt, hy, hz] at h2
  rw [lessIdx_eq_valAt, hx, hz]
  exact hneg x y z h1 h2

theorem lessIdx_trans
    (hasym : ∀ a b, less a b = true → less b a = false)
    (hneg : ∀ a b c, less a b = false → less b c = false → less a c = false)
    {h : List (Elem α)} {a b c : Nat}
    (ha : a < h.length) (hb : b < h.length) (hc : c < h.length)
    (h1 : lessIdx less h a b = true) (h2 : lessIdx less h b c = true) :
    lessIdx less h a c = true := by
  obtain ⟨x, hx⟩ := valAt_isSome ha
  obtain ⟨y, hy⟩ := valAt_isSome hb
  obtain ⟨z, hz⟩ := valAt_isSome hc
  rw [lessIdx_eq_valAt, hx, hy] at h1
  rw [lessIdx_eq_valAt, hy, hz] at h2
  rw [lessIdx_eq_valAt, hx, hz]
  exact less_trans less hasym hneg h1 h2

end Order

end Prio

namespace Prio

section DownLemmas

variable {α : Type} (less : α → α → Bool)

theorem valAt_eq_of_getElem?_eq {h1 h2 : List (Elem α)} {i j : Nat}
    (he : h1[i]? = h2[j]?) : valAt h1 i = valAt h2 j := by
  unfold valAt
  rw [he]

/-- After `down`, the element at the sift root `i` is either the original one
or one of the original children of `i` (with the original root not `Less`
than that child, since that is the swap condition). -/
theorem down_E (h : List (Elem α)) (i n : Nat) (hn : n ≤ h.length) (hin : i < n) :
    valAt (down less h i n) i = valAt h i ∨
      ∃ c, (c = 2 * i + 1 ∨ c = 2 * i + 2) ∧ c < n ∧
        valAt (down less h i n) i = valAt h c ∧ lessIdx less h i c = false := by
  by_cases hcase : n ≤ 2 * i + 1
  · left
    rw [down_eq_stop1 less hcase, valAt_notify]
  · cases hl : lessIdx less h i (pickChild less h i n) with
    | true =>
      left
      rw [down_eq_stop2 less hcase hl, valAt_notify]
    | false =>
      right
      obtain ⟨hij, hjn, hjc⟩ := pickChild_lt less h hcase
      refine ⟨pickChild less h i n, hjc, hjn, ?_, hl⟩
      rw [down_eq_rec less hcase hl]
      have hfr := down_frame less (notify (swap h i (pickChild less h i n)) i)
        (pickChild less h i n) n i (by omega) (Or.inl (isDesc_lt_false hij))
      rw [valAt_eq_of_getElem?_eq hfr, valAt_notify,
        valAt_swap h i (pickChild less h i n) (by omega) (by omega) i, if_pos rfl]

/-- Every position in the subtree of `i` holds, after `down`, a value that was
in the subtree of `i` before. -/
theorem down_subtree : ∀ (h : List (Elem α)) (i n : Nat), n ≤ h.length →
    ∀ p, isDesc i p = true → p < n →
      ∃ d, isDesc i d = true ∧ d < n ∧ valAt (down less h i n) p = valAt h d := by
  intro h i n
  induction h, i, n using down.induct less with
  | case1 h i n hcase =>
    intro hn p hp hpn
    exact ⟨p, hp, hpn, by rw [down_eq_stop1 less hcase, valAt_notify]⟩
  | case2 h i n hcase j hl =>
    intro hn p hp hpn
    exact ⟨p, hp, hpn, by rw [down_eq_stop2 less hcase hl, valAt_notify]⟩
  | case3 h i n hcase j hl ih =>
    intro hn p hp hpn
    have hl2 : lessIdx less h i (pickChild less h i n) = false := Bool.not_eq_true _ ▸ hl
    obtain ⟨hij, hjn, hjc⟩ := pickChild_lt less h hcase
    have hjdef : pickChild less h i n = j := rfl
    rw [hjdef] at hij hjn hjc hl2
    rw [down_eq_rec less hcase (hjdef ▸ hl2), hjdef]
    have hlen2 : n ≤ (notify (swap h i j) i).length := by
      rw [length_notify, length_swap]
      exact hn
    cases hdes : isDesc j p with
    | true =>
      obtain ⟨d2, hd2, hd2n, hval⟩ := ih hlen2 p hdes hpn
      rcases eq_or_ne d2 j with rfl | hne
      · refine ⟨i, isDesc_self i, by omega, ?_⟩
        rw [hval, valAt_notify, valAt_swap h i j (by omega) (by omega) j,
          if_neg (by omega), if_pos rfl]
      · have hgt : j < d2 := by
          have := isDesc_le hd2
          omega
        refine ⟨d2, isDesc_trans (isDesc_child hjc) d2 hd2, hd2n, ?_⟩
        rw [hval, valAt_notify, valAt_swap h i j (by omega) (by omega) d2,
          if_neg (by omega), if_neg (by omega)]
    | false =>
      have hfr := down_frame less (notify (swap h i j) i) j n p
        (isDesc_ne_of_false hdes) (Or.inl hdes)
      rcases eq_or_ne p i with hpi | hpi
      · refine ⟨j, isDesc_child hjc, hjn, ?_⟩
        rw [valAt_eq_of_getElem?_eq hfr, valAt_notify, hpi,
          valAt_swap h i j (by omega) (by omega) i, if_pos rfl]
      · refine ⟨p, hp, hpn, ?_⟩
        rw [valAt_eq_of_getElem?_eq hfr, valAt_notify,
          valAt_swap h i j (by omega) (by omega) p, if_neg hpi,
          if_neg (isDesc_ne_of_false hdes)]

/-- In a region satisfying the pairwise heap condition, no element is `Less`
than any of its ancestors. -/
theorem heap_chain
    (hasym : ∀ a b, less a b = true → less b a = false)
    (hneg : ∀ a b c, less a b = false → less b c = false → less a c = false)
    (h : List (Elem α)) (n : Nat) (hn : n ≤ h.length)
    (hp : ∀ k, k < n → 0 < k → lessIdx less h k ((k - 1) / 2) = false) :
    ∀ k a, isDesc a k = true → k < n → lessIdx less h k a = false := by
  intro k
  induction k using Nat.strong_induction_on with
  | _ k ih =>
    intro a hd hkn
    rcases eq_or_ne k a with rfl | hka
    · exact lessIdx_irrefl less hasym (by omega)
    · have hak : a < k := by
        have := isDesc_le hd
        omega
      have hd2 : isDesc a ((k - 1) / 2) = true := by
        rw [← isDesc_step hak]
        exact hd
      have hpair := hp k hkn (by omega)
      have hih := ih ((k - 1) / 2) (by omega) a hd2 (by omega)
      exact lessIdx_negtrans less hneg (by omega) (by omega)
        (by have := isDesc_le hd2; omega) hpair hih

end DownLemmas

end Prio

namespace Prio

section DownHeap

variable {α : Type} (less : α → α → Bool)

theorem pickChild_eq_right {h : List (Elem α)} {i n : Nat}
    (he : pickChild less h i n = 2 * i + 2) :
    2 * i + 2 < n ∧ lessIdx less h (2 * i + 1) (2 * i + 2) = false := by
  unfold pickChild at he
  split at he
  · rename_i hg
    exact hg
  · omega

theorem pickChild_eq_left {h : List (Elem α)} {i n : Nat}
    (he : pickChild less h i n = 2 * i + 1) (hlt : 2 * i + 2 < n) :
    lessIdx less h (2 * i + 1) (2 * i + 2) = true := by
  unfold pickChild at he
  split at he
  · omega
  · rename_i hg
    cases hb : lessIdx less h (2 * i + 1) (2 * i + 2) with
    | true => rfl
    | false => exact absurd ⟨hlt, hb⟩ hg

/-- Core correctness of `down`: if every parent/child pair with parent deeper
than `i` is ordered, then after `down` every pair with parent at `i` or
deeper is ordered. -/
theorem down_heap
    (hasym : ∀ a b, less a b = true → less b a = false)
    (hneg : ∀ a b c, less a b = false → less b c = false → less a c = false) :
    ∀ (h : List (Elem α)) (i n : Nat), n ≤ h.length → i < n →
      (∀ k, k < n → i < (k - 1) / 2 → lessIdx less h k ((k - 1) / 2) = false) →
      ∀ k, k < n → 0 < k → i ≤ (k - 1) / 2 →
        lessIdx less (down less h i n) k ((k - 1) / 2) = false := by
  intro h i n
  induction h, i, n using down.induct less with
  | case1 h i n hcase =>
    intro hn hin hA k hkn hk0 hip
    rw [down_eq_stop1 less hcase, lessIdx_notify]
    rcases Nat.lt_or_ge i ((k - 1) / 2) with hlt | hge
    · exact hA k hkn hlt
    · omega
  | case2 h i n hcase j hl =>
    intro hn hin hA k hkn hk0 hip
    rw [down_eq_stop2 less hcase hl, lessIdx_notify]
    obtain ⟨hij, hjn, hjc⟩ := pickChild_lt less h hcase
    have hjdef : pickChild less h i n = j := rfl
    rw [hjdef] at hij hjn hjc
    rcases Nat.lt_or_ge i ((k - 1) / 2) with hlt | hge
    · exact hA k hkn hlt
    · have hpi : (k - 1) / 2 = i := by omega
      have hk12 : k = 2 * i + 1 ∨ k = 2 * i + 2 := by omega
      rw [hpi]
      rcases hjc with hcl | hcr
      · rw [hcl] at hl
        rcases hk12 with rfl | rfl
        · exact lessIdx_asym less hasym (by omega) (by omega) hl
        · have h12 := pickChild_eq_left less (hjdef.trans hcl) (by omega)
          have hi2 : lessIdx less h i (2 * i + 2) = true :=
            lessIdx_trans less hasym hneg (by omega) (by omega) (by omega) hl h12
          exact lessIdx_asym less hasym (by omega) (by omega) hi2
      · rw [hcr] at hl
        obtain ⟨h2n, h12⟩ := pickChild_eq_right less (hjdef.trans hcr)
        rcases hk12 with rfl | rfl
        · cases hck : lessIdx less h (2 * i + 1) i with
          | false => rfl
          | true =>
            have := lessIdx_trans less hasym hneg (by omega) (by omega) (by omega) hck hl
            rw [this] at h12
            exact Bool.noConfusion h12
        · exact lessIdx_asym less hasym (by omega) (by omega) hl
  | case3 h i n hcase j hl ih =>
    intro hn hin hA k hkn hk0 hip
    have hl2 : lessIdx less h i (pickChild less h i n) = false := Bool.not_eq_true _ ▸ hl
    obtain ⟨hij, hjn, hjc⟩ := pickChild_lt less h hcase
    have hjdef : pickChild less h i n = j := rfl
    rw [hjdef] at hij hjn hjc hl2
    rw [down_eq_rec less hcase (hjdef ▸ hl2), hjdef]
    have hlen2 : n ≤ (notify (swap h i j) i).length := by
      rw [length_notify, length_swap]
      exact hn
    have hv_i : valAt (notify (swap h i j) i) i = valAt h j := by
      rw [valAt_notify, valAt_swap h i j (by omega) (by omega) i, if_pos rfl]
    have hv_j : valAt (notify (swap h i j) i) j = valAt h i := by
      rw [valAt_notify, valAt_swap h i j (by omega) (by omega) j,
        if_neg (by omega), if_pos rfl]
    have hv_o : ∀ m, m ≠ i → m ≠ j → valAt (notify (swap h i j) i) m = valAt h m := by
      intro m hmi hmj
      rw [valAt_notify, valAt_swap h i j (by omega) (by omega) m, if_neg hmi, if_neg hmj]
    have hA2 : ∀ k2, k2 < n → j < (k2 - 1) / 2 →
        lessIdx less (notify (swap h i j) i) k2 ((k2 - 1) / 2) = false := by
      intro k2 hk2n hk2p
      have hk2 : 2 * ((k2 - 1) / 2) + 1 ≤ k2 := by omega
      rw [lessIdx_ext less (hv_o k2 (by omega) (by omega))
        (hv_o ((k2 - 1) / 2) (by omega) (by omega))]
      exact hA k2 hk2n (by omega)
    have IHc := ih hlen2 hjn hA2
    rcases Nat.lt_or_ge ((k - 1) / 2) j with hpj | hpj
    · -- parent strictly between i and j, or exactly i
      rcases Nat.lt_or_ge i ((k - 1) / 2) with hmid | hgei
      · -- i < parent < j : untouched region
        have hkj : isDesc j k = false := by
          cases hdk : isDesc j k with
          | false => rfl
          | true =>
            rcases eq_or_ne k j with rfl | hne
            · omega
            · have hkgt : j < k := by
                have := isDesc_le hdk
                omega
              rw [isDesc_step hkgt] at hdk
              have := isDesc_le hdk
              omega
        have hpdesc : isDesc j ((k - 1) / 2) = false := isDesc_lt_false hpj
        have hfk := down_frame less (notify (swap h i j) i) j n k
          (isDesc_ne_of_false hkj) (Or.inl hkj)
        have hfp := down_frame less (notify (swap h i j) i) j n ((k - 1) / 2)
          (isDesc_ne_of_false hpdesc) (Or.inl hpdesc)
        rw [lessIdx_ext less (valAt_eq_of_getElem?_eq hfk) (valAt_eq_of_getElem?_eq hfp)]
        rw [lessIdx_ext less (hv_o k (by omega) (isDesc_ne_of_false hkj))
          (hv_o ((k - 1) / 2) (by omega) (by omega))]
        exact hA k hkn hmid
      · -- parent = i, k is j or its sibling
        have hpi : (k - 1) / 2 = i := by omega
        have hk12 : k = 2 * i + 1 ∨ k = 2 * i + 2 := by omega
        have hfi := down_frame less (notify (swap h i j) i) j n i
          (by omega) (Or.inl (isDesc_lt_false hij))
        have hvfi : valAt (down less (notify (swap h i j) i) j n) i = valAt h j :=
          (valAt_eq_of_getElem?_eq hfi).trans hv_i
        rcases eq_or_ne k j with rfl | hkj
        · -- the pair (j, i); k has been substituted by j
          rw [hpi]
          rcases down_E less (notify (swap h i j) i) j n hlen2 hjn with
            hE | ⟨c, hc12, hcn, hEv, hEl⟩
          · rw [lessIdx_ext less (hE.trans hv_j) hvfi]
            exact hl2
          · have hci : c ≠ i := by omega
            have hcj : c ≠ j := by omega
            rw [lessIdx_ext less (hEv.trans (hv_o c hci hcj)) hvfi]
            have hcp : (c - 1) / 2 = j := by omega
            have hh := hA c hcn (by omega)
            rw [hcp] at hh
            exact hh
        · -- the sibling pair (s, i)
          have hsib : isDesc j k = false := by
            apply isDesc_sibling i
            rcases hjc with hcl | hcr
            · left
              exact ⟨hcl, by omega⟩
            · right
              exact ⟨hcr, by omega⟩
          have hfs := down_frame less (notify (swap h i j) i) j n k
            (isDesc_ne_of_false hsib) (Or.inl hsib)
          rw [hpi]
          rw [lessIdx_ext less ((valAt_eq_of_getElem?_eq hfs).trans
            (hv_o k (by omega) hkj)) hvfi]
          -- goal : lessIdx less h k j = false, k the sibling of j
          rcases hjc with hcl | hcr
          · -- j = 2i+1, k = 2i+2
            have hk2 : k = 2 * i + 2 := by omega
            have h12 := pickChild_eq_left less (hjdef.trans hcl) (by omega)
            rw [hk2, hcl]
            exact lessIdx_asym less hasym (by omega) (by omega) h12
          · -- j = 2i+2, k = 2i+1
            obtain ⟨h2n, h12⟩ := pickChild_eq_right less (hjdef.trans hcr)
            rw [hcr, hk12.resolve_right (by omega)]
            exact h12
    · exact IHc k hkn hk0 hpj

end DownHeap

end Prio

namespace Prio

section UpHeap

variable {α : Type} (less : α → α → Bool)

/-- Core correctness of `up`: if every pair except the one into `j` is
ordered, and the children of `j` are already at least the parent of `j`,
then after `up` every pair inside the bound is ordered. -/
theorem up_heap
    (hasym : ∀ a b, less a b = true → less b a = false)
    (hneg : ∀ a b c, less a b = false → less b c = false → less a c = false) :
    ∀ (h : List (Elem α)) (j : Nat), ∀ m, m ≤ h.length → j < m →
      (∀ k, k < m → 0 < k → k ≠ j → lessIdx less h k ((k - 1) / 2) = false) →
      (∀ c, (c = 2 * j + 1 ∨ c = 2 * j + 2) → c < m → 0 < j →
        lessIdx less h c ((j - 1) / 2) = false) →
      ∀ k, k < m → 0 < k → lessIdx less (up less h j) k ((k - 1) / 2) = false := by
  intro h j
  induction h, j using up.induct less with
  | case1 h j i hc =>
    intro m hm hjm h1 h2 k hkm hk0
    rw [up_eq_stop less hc, lessIdx_notify]
    rcases eq_or_ne k j with rfl | hkj
    · rcases hc with hij | hlt
      · exact absurd hk0 (by omega)
      · exact lessIdx_asym less hasym (by omega) (by omega) hlt
    · exact h1 k hkm hk0 hkj
  | case2 h j i hc ih =>
    intro m hm hjm h1 h2 k hkm hk0
    rw [up_eq_rec less hc]
    rw [not_or] at hc
    have hlf : lessIdx less h i j = false := Bool.not_eq_true _ ▸ hc.2
    have hj0 : 0 < j := by
      have := hc.1
      omega
    have hij : i < j := by omega
    have hjc : j = 2 * i + 1 ∨ j = 2 * i + 2 := by omega
    have him : i < m := by omega
    have hlen2 : m ≤ (notify (swap h i j) j).length := by
      rw [length_notify, length_swap]
      exact hm
    have hv_i : valAt (notify (swap h i j) j) i = valAt h j := by
      rw [valAt_notify, valAt_swap h i j (by omega) (by omega) i, if_pos rfl]
    have hv_j : valAt (notify (swap h i j) j) j = valAt h i := by
      rw [valAt_notify, valAt_swap h i j (by omega) (by omega) j,
        if_neg (by omega), if_pos rfl]
    have hv_o : ∀ v, v ≠ i → v ≠ j → valAt (notify (swap h i j) j) v = valAt h v := by
      intro v hvi hvj
      rw [valAt_notify, valAt_swap h i j (by omega) (by omega) v, if_neg hvi, if_neg hvj]
    have h1N : ∀ k2, k2 < m → 0 < k2 → k2 ≠ i →
        lessIdx less (notify (swap h i j) j) k2 ((k2 - 1) / 2) = false := by
      intro k2 hk2m hk20 hk2i
      rcases eq_or_ne k2 j with rfl | hk2j
      · rw [show (k2 - 1) / 2 = i from rfl, lessIdx_ext less hv_j hv_i]
        exact hlf
      · rcases eq_or_ne ((k2 - 1) / 2) j with hpj | hpj
        · have hk2c : k2 = 2 * j + 1 ∨ k2 = 2 * j + 2 := by omega
          rw [hpj, lessIdx_ext less (hv_o k2 (by omega) hk2j) hv_j]
          have hh := h2 k2 hk2c hk2m hj0
          exact hh
        · rcases eq_or_ne ((k2 - 1) / 2) i with hpi | hpi
          · rw [hpi, lessIdx_ext less (hv_o k2 hk2i hk2j) hv_i]
            have ha := h1 k2 hk2m hk20 hk2j
            rw [hpi] at ha
            exact lessIdx_negtrans less hneg (by omega) (by omega) (by omega) ha hlf
          · rw [lessIdx_ext less (hv_o k2 hk2i hk2j) (hv_o ((k2 - 1) / 2) hpi hpj)]
            exact h1 k2 hk2m hk20 hk2j
    have h2N : ∀ c, (c = 2 * i + 1 ∨ c = 2 * i + 2) → c < m → 0 < i →
        lessIdx less (notify (swap h i j) j) c ((i - 1) / 2) = false := by
      intro c hc12 hcm hi0
      have hgp : (i - 1) / 2 ≠ i := by omega
      have hgpj : (i - 1) / 2 ≠ j := by omega
      rcases eq_or_ne c j with rfl | hcj
      · rw [lessIdx_ext less hv_j (hv_o ((i - 1) / 2) hgp hgpj)]
        exact h1 i him hi0 hc.1
      · have hci : c ≠ i := by omega
        rw [lessIdx_ext less (hv_o c hci hcj) (hv_o ((i - 1) / 2) hgp hgpj)]
        have hcp : (c - 1) / 2 = i := by omega
        have ha := h1 c hcm (by omega) hcj
        rw [hcp] at ha
        have hb := h1 i him hi0 hc.1
        exact lessIdx_negtrans less hneg (by omega) (by omega) (by omega) ha hb
    exact ih m hlen2 him h1N h2N k hkm hk0

end UpHeap

end Prio

namespace Prio

section PermIdx

variable {α : Type} (less : α → α → Bool)

theorem vals_down_perm : ∀ (h : List (Elem α)) (i n : Nat),
    List.Perm (vals (down less h i n)) (vals h) := by
  intro h i n
  induction h, i, n using down.induct less with
  | case1 h i n hcase =>
    rw [down_eq_stop1 less hcase, vals_notify]
  | case2 h i n hcase j hl =>
    rw [down_eq_stop2 less hcase hl, vals_notify]
  | case3 h i n hcase j hl ih =>
    have hl2 : lessIdx less h i (pickChild less h i n) = false := Bool.not_eq_true _ ▸ hl
    rw [down_eq_rec less hcase hl2]
    refine ih.trans ?_
    rw [vals_notify]
    exact vals_swap_perm h i (pickChild less h i n)

theorem vals_up_perm : ∀ (h : List (Elem α)) (j : Nat),
    List.Perm (vals (up less h j)) (vals h) := by
  intro h j
  induction h, j using up.induct less with
  | case1 h j i hc =>
    rw [up_eq_stop less hc, vals_notify]
  | case2 h j i hc ih =>
    rw [up_eq_rec less hc]
    refine ih.trans ?_
    rw [vals_notify]
    exact vals_swap_perm h ((j - 1) / 2) j

theorem lastOk_notify_self {h : List (Elem α)} {j : Nat} (hj : j < h.length) :
    lastOk (notify h j) j := by
  obtain ⟨e, he⟩ : ∃ e, h[j]? = some e := by
    rw [List.getElem?_eq_getElem hj]
    exact ⟨_, rfl⟩
  unfold lastOk
  rw [getElem?_notify_self h he]
  rfl

theorem lastOk_of_getElem?_eq {h1 h2 : List (Elem α)} {k : Nat}
    (he : h1[k]? = h2[k]?) (hl : lastOk h2 k) : lastOk h1 k := by
  unfold lastOk at hl ⊢
  rw [he]
  exact hl

theorem down_idx : ∀ (h : List (Elem α)) (i n : Nat), n ≤ h.length → i < n →
    (∀ k, k < n → k ≠ i → lastOk h k) →
    ∀ k, k < n → lastOk (down less h i n) k := by
  intro h i n
  induction h, i, n using down.induct less with
  | case1 h i n hcase =>
    intro hn hin hpre k hkn
    rw [down_eq_stop1 less hcase]
    rcases eq_or_ne k i with rfl | hki
    · exact lastOk_notify_self (by omega)
    · exact lastOk_of_getElem?_eq (getElem?_notify_ne h hki) (hpre k hkn hki)
  | case2 h i n hcase j hl =>
    intro hn hin hpre k hkn
    rw [down_eq_stop2 less hcase hl]
    rcases eq_or_ne k i with rfl | hki
    · exact lastOk_notify_self (by omega)
    · exact lastOk_of_getElem?_eq (getElem?_notify_ne h hki) (hpre k hkn hki)
  | case3 h i n hcase j hl ih =>
    intro hn hin hpre k hkn
    have hl2 : lessIdx less h i (pickChild less h i n) = false := Bool.not_eq_true _ ▸ hl
    obtain ⟨hij, hjn, hjc⟩ := pickChild_lt less h hcase
    have hjdef : pickChild less h i n = j := rfl
    rw [hjdef] at hij hjn hjc hl2
    rw [down_eq_rec less hcase (hjdef ▸ hl2), hjdef]
    have hlen2 : n ≤ (notify (swap h i j) i).length := by
      rw [length_notify, length_swap]
      exact hn
    refine ih hlen2 hjn ?_ k hkn
    intro k2 hk2n hk2j
    rcases eq_or_ne k2 i with rfl | hk2i
    · exact lastOk_notify_self (by rw [length_swap]; omega)
    · refine lastOk_of_getElem?_eq ?_ (hpre k2 hk2n hk2i)
      rw [getElem?_notify_ne _ hk2i, getElem?_swap_ne h hk2i hk2j]

theorem up_idx : ∀ (h : List (Elem α)) (j : Nat), ∀ m, m ≤ h.length → j < m →
    (∀ k, k < m → k ≠ j → lastOk h k) →
    ∀ k, k < m → lastOk (up less h j) k := by
  intro h j
  induction h, j using up.induct less with
  | case1 h j i hc =>
    intro m hm hjm hpre k hkm
    rw [up_eq_stop less hc]
    rcases eq_or_ne k j with rfl | hkj
    · exact lastOk_notify_self (by omega)
    · exact lastOk_of_getElem?_eq (getElem?_notify_ne h hkj) (hpre k hkm hkj)
  | case2 h j i hc ih =>
    intro m hm hjm hpre k hkm
    rw [up_eq_rec less hc]
    rw [not_or] at hc
    have hij : i < j := by
      have := hc.1
      omega
    have hlen2 : m ≤ (notify (swap h i j) j).length := by
      rw [length_notify, length_swap]
      exact hm
    refine ih m hlen2 (by omega) ?_ k hkm
    intro k2 hk2m hk2i
    rcases eq_or_ne k2 j with rfl | hk2j
    · exact lastOk_notify_self (by rw [length_swap]; omega)
    · refine lastOk_of_getElem?_eq ?_ (hpre k2 hk2m hk2j)
      rw [getElem?_notify_ne _ hk2j, getElem?_swap_ne h hk2i hk2j]

end PermIdx

end Prio

namespace Prio

section HeapifyInit

variable {α : Type} (less : α → α → Bool)

/-- Exact branch behaviour of one step of `down`. -/
theorem down_unfold_cases (h : List (Elem α)) (i n : Nat) :
    down less h i n = notify h i ∨
      ∃ c, (c = 2 * i + 1 ∨ c = 2 * i + 2) ∧ c < n ∧ lessIdx less h i c = false ∧
        down less h i n = down less (notify (swap h i c) i) c n := by
  by_cases hcase : n ≤ 2 * i + 1
  · exact Or.inl (down_eq_stop1 less hcase)
  · cases hl : lessIdx less h i (pickChild less h i n) with
    | true => exact Or.inl (down_eq_stop2 less hcase hl)
    | false =>
      obtain ⟨hij, hjn, hjc⟩ := pickChild_lt less h hcase
      exact Or.inr ⟨pickChild less h i n, hjc, hjn, hl, down_eq_rec less hcase hl⟩

theorem heapifyAux_length (n : Nat) : ∀ (m : Nat) (h : List (Elem α)),
    (heapifyAux less n h m).length = h.length := by
  intro m
  induction m with
  | zero => intro h; rfl
  | succ m ih =>
    intro h
    show (heapifyAux less n (down less h m n) m).length = h.length
    rw [ih, down_length]

theorem heapifyAux_perm (n : Nat) : ∀ (m : Nat) (h : List (Elem α)),
    List.Perm (vals (heapifyAux less n h m)) (vals h) := by
  intro m
  induction m with
  | zero => intro h; exact List.Perm.refl _
  | succ m ih =>
    intro h
    exact (ih (down less h m n)).trans (vals_down_perm less h m n)

theorem heapifyAux_heap
    (hasym : ∀ a b, less a b = true → less b a = false)
    (hneg : ∀ a b c, less a b = false → less b c = false → less a c = false)
    (n : Nat) : ∀ (m : Nat) (h : List (Elem α)), m ≤ n → n ≤ h.length →
    (∀ k, k < n → 0 < k → m ≤ (k - 1) / 2 → lessIdx less h k ((k - 1) / 2) = false) →
    ∀ k, k < n → 0 < k → lessIdx less (heapifyAux less n h m) k ((k - 1) / 2) = false := by
  intro m
  induction m with
  | zero =>
    intro h hmn hn hpre k hkn hk0
    exact hpre k hkn hk0 (Nat.zero_le _)
  | succ m ih =>
    intro h hmn hn hpre k hkn hk0
    show lessIdx less (heapifyAux less n (down less h m n) m) k ((k - 1) / 2) = false
    refine ih (down less h m n) (by omega) (by rw [down_length]; exact hn) ?_ k hkn hk0
    intro k2 hk2n hk20 hk2m
    exact down_heap less hasym hneg h m n hn (by omega)
      (fun k3 hk3 hp3 => hpre k3 hk3 (by omega) (by omega)) k2 hk2n hk20 hk2m

theorem heapifyAux_idx (n : Nat) : ∀ (m : Nat) (h : List (Elem α)), m ≤ n →
    n ≤ h.length → (∀ k, k < n → lastOk h k) →
    ∀ k, k < n → lastOk (heapifyAux less n h m) k := by
  intro m
  induction m with
  | zero =>
    intro h hmn hn hpre k hkn
    exact hpre k hkn
  | succ m ih =>
    intro h hmn hn hpre k hkn
    show lastOk (heapifyAux less n (down less h m n) m) k
    refine ih (down less h m n) (by omega) (by rw [down_length]; exact hn) ?_ k hkn
    exact down_idx less h m n hn (by omega) (fun k2 hk2 _ => hpre k2 hk2)

theorem heapify_heap
    (hasym : ∀ a b, less a b = true → less b a = false)
    (hneg : ∀ a b c, less a b = false → less b c = false → less a c = false)
    (h : List (Elem α)) : heapInv less (heapify less h) := by
  intro k hkl hk0
  rw [heapify] at hkl ⊢
  rw [heapifyAux_length] at hkl
  exact heapifyAux_heap less hasym hneg h.length (h.length / 2) h
    (by omega) (le_refl _) (fun k3 hk3 hk30 hk3m => by omega) k hkl hk0

theorem heapify_idx (h : List (Elem α)) (hpre : ∀ k, k < h.length → lastOk h k) :
    ∀ k, k < h.length → lastOk (heapify less h) k := by
  intro k hkl
  rw [heapify]
  exact heapifyAux_idx less h.length (h.length / 2) h (by omega) (le_refl _) hpre k hkl

theorem initIdx_length : ∀ (m : Nat) (h : List (Elem α)),
    (initIdx h m).length = h.length := by
  intro m
  induction m with
  | zero => intro h; rfl
  | succ m ih =>
    intro h
    show (initIdx (notify h m) m).length = h.length
    rw [ih, length_notify]

theorem initIdx_getElem?_ge : ∀ (m : Nat) (h : List (Elem α)) (k : Nat), m ≤ k →
    (initIdx h m)[k]? = h[k]? := by
  intro m
  induction m with
  | zero => intro h k _; rfl
  | succ m ih =>
    intro h k hk
    show (initIdx (notify h m) m)[k]? = h[k]?
    rw [ih (notify h m) k (by omega), getElem?_notify_ne h (by omega)]

theorem initIdx_lastOk : ∀ (m : Nat) (h : List (Elem α)), m ≤ h.length →
    ∀ k, k < m → lastOk (initIdx h m) k := by
  intro m
  induction m with
  | zero =>
    intro h hm k hk
    omega
  | succ m ih =>
    intro h hm k hk
    show lastOk (initIdx (notify h m) m) k
    rcases eq_or_ne k m with rfl | hkm
    · refine lastOk_of_getElem?_eq (initIdx_getElem?_ge k (notify h k) k (le_refl _)) ?_
      exact lastOk_notify_self (by omega)
    · exact ih (notify h m) (by rw [length_notify]; omega) k (by omega)

theorem initIdx_vals : ∀ (m : Nat) (h : List (Elem α)), vals (initIdx h m) = vals h := by
  intro m
  induction m with
  | zero => intro h; rfl
  | succ m ih =>
    intro h
    show vals (initIdx (notify h m) m) = vals h
    rw [ih, vals_notify]

end HeapifyInit

end Prio

namespace Prio

section Ops

variable {α : Type} (less : α → α → Bool)

theorem valAt_append_left {h : List (Elem α)} {k : Nat} (hk : k < h.length)
    (x : Elem α) : valAt (h ++ [x]) k = valAt h k := by
  unfold valAt
  rw [List.getElem?_append_left hk]

theorem valAt_take {h : List (Elem α)} {m k : Nat} (hk : k < m) :
    valAt (h.take m) k = valAt h k := by
  unfold valAt
  rw [List.getElem?_take_of_lt hk]

theorem valAt_swap_ne {h : List (Elem α)} {i j k : Nat} (hki : k ≠ i) (hkj : k ≠ j) :
    valAt (swap h i j) k = valAt h k := by
  unfold valAt
  rw [getElem?_swap_ne h hki hkj]

theorem valAt_swap_fst (h : List (Elem α)) (i j : Nat)
    (hi : i < h.length) (hj : j < h.length) : valAt (swap h i j) i = valAt h j := by
  rw [valAt_swap h i j hi hj i, if_pos rfl]

theorem valAt_swap_snd (h : List (Elem α)) (i j : Nat)
    (hi : i < h.length) (hj : j < h.length) : valAt (swap h i j) j = valAt h i := by
  rw [valAt_swap h i j hi hj j]
  rcases eq_or_ne j i with he | hne
  · rw [if_pos he, he]
  · rw [if_neg hne, if_pos rfl]

theorem heapInv_take {h : List (Elem α)} (m : Nat) (hq : heapInv less h) :
    heapInv less (h.take m) := by
  intro k hkl hk0
  rw [List.length_take] at hkl
  rw [lessIdx_ext less (valAt_take (by omega)) (valAt_take (by omega))]
  exact hq k (by omega) hk0

theorem idxInv_take {h : List (Elem α)} (m : Nat) (hq : idxInv h) :
    idxInv (h.take m) := by
  intro k hkl
  rw [List.length_take] at hkl
  refine lastOk_of_getElem?_eq (List.getElem?_take_of_lt (by omega)) (hq k (by omega))

theorem push_len (q : Queue α) (x : Elem α) :
    (push less q x).h.length = q.h.length + 1 := by
  show (up less (q.h ++ [x]) q.h.length).length = q.h.length + 1
  rw [up_length]
  simp

theorem push_heap
    (hasym : ∀ a b, less a b = true → less b a = false)
    (hneg : ∀ a b c, less a b = false → less b c = false → less a c = false)
    (q : Queue α) (x : Elem α) (hq : heapInv less q.h) :
    heapInv less (push less q x).h := by
  intro k hkl hk0
  have hkl2 : k < q.h.length + 1 := by
    rw [push_len] at hkl
    exact hkl
  refine up_heap less hasym hneg (q.h ++ [x]) q.h.length (q.h.length + 1)
    (by simp) (by omega) ?_ ?_ k hkl2 hk0
  · intro k2 hk2m hk20 hk2j
    have hk2l : k2 < q.h.length := by omega
    rw [lessIdx_ext less (valAt_append_left hk2l x) (valAt_append_left (by omega) x)]
    exact hq k2 hk2l hk20
  · intro c hc12 hcm
    omega

theorem push_idx (q : Queue α) (x : Elem α) (hq : idxInv q.h) :
    idxInv (push less q x).h := by
  intro k hkl
  rw [push_len] at hkl
  refine up_idx less (q.h ++ [x]) q.h.length (q.h.length + 1) (by simp) (by omega)
    ?_ k hkl
  intro k2 hk2m hk2j
  have hk2l : k2 < q.h.length := by omega
  refine lastOk_of_getElem?_eq (List.getElem?_append_left hk2l) (hq k2 hk2l)

theorem push_vals (q : Queue α) (x : Elem α) :
    List.Perm (vals (push less q x).h) (vals q.h ++ [x.val]) := by
  show List.Perm (vals (up less (q.h ++ [x]) q.h.length)) (vals q.h ++ [x.val])
  have hv : vals (q.h ++ [x]) = vals q.h ++ [x.val] := by
    unfold vals
    rw [List.map_append]
    rfl
  rw [← hv]
  exact vals_up_perm less (q.h ++ [x]) q.h.length

theorem pop_ok_elim {q : Queue α} {x : Elem α} {q2 : Queue α}
    (hp : pop less q = .ok (x, q2)) :
    q.h[0]? = some x ∧
      q2 = ⟨(down less (swap q.h 0 (q.h.length - 1)) 0 (q.h.length - 1)).take
        (q.h.length - 1)⟩ := by
  unfold pop at hp
  cases h0 : q.h[0]? with
  | none =>
    rw [h0] at hp
    exact Outcome.noConfusion hp
  | some y =>
    rw [h0] at hp
    simp only [Outcome.ok.injEq, Prod.mk.injEq] at hp
    exact ⟨by rw [hp.1], hp.2.symm⟩

theorem pop_len {q : Queue α} {x : Elem α} {q2 : Queue α}
    (hp : pop less q = .ok (x, q2)) : q2.h.length = q.h.length - 1 := by
  obtain ⟨h0, rfl⟩ := pop_ok_elim less hp
  have hl0 : 0 < q.h.length := by
    rcases List.getElem?_eq_some_iff.1 h0 with ⟨hlt, _⟩
    omega
  show (List.take (q.h.length - 1) _).length = q.h.length - 1
  rw [List.length_take, down_length, length_swap]
  omega

theorem pop_heap
    (hasym : ∀ a b, less a b = true → less b a = false)
    (hneg : ∀ a b c, less a b = false → less b c = false → less a c = false)
    {q : Queue α} {x : Elem α} {q2 : Queue α}
    (hq : heapInv less q.h) (hp : pop less q = .ok (x, q2)) :
    heapInv less q2.h := by
  obtain ⟨h0, rfl⟩ := pop_ok_elim less hp
  have hl0 : 0 < q.h.length := by
    rcases List.getElem?_eq_some_iff.1 h0 with ⟨hlt, _⟩
    omega
  intro k hkl hk0
  rw [List.length_take, down_length, length_swap] at hkl
  have hkn : k < q.h.length - 1 := by omega
  rw [lessIdx_ext less (valAt_take (by omega)) (valAt_take (by omega))]
  refine down_heap less hasym hneg (swap q.h 0 (q.h.length - 1)) 0 (q.h.length - 1)
    (by rw [length_swap]; omega) (by omega) ?_ k hkn hk0 (by omega)
  intro k2 hk2n hk2p
  have hk2g : 2 * ((k2 - 1) / 2) + 1 ≤ k2 := by omega
  rw [lessIdx_ext less
    (@valAt_swap_ne α q.h 0 (q.h.length - 1) k2 (by omega) (by omega))
    (@valAt_swap_ne α q.h 0 (q.h.length - 1) ((k2 - 1) / 2) (by omega) (by omega))]
  exact hq k2 (by omega) (by omega)

theorem pop_idx {q : Queue α} {x : Elem α} {q2 : Queue α}
    (hq : idxInv q.h) (hp : pop less q = .ok (x, q2)) : idxInv q2.h := by
  obtain ⟨h0, rfl⟩ := pop_ok_elim less hp
  have hl0 : 0 < q.h.length := by
    rcases List.getElem?_eq_some_iff.1 h0 with ⟨hlt, _⟩
    omega
  intro k hkl
  rw [List.length_take, down_length, length_swap] at hkl
  have hkn : k < q.h.length - 1 := by omega
  refine lastOk_of_getElem?_eq (List.getElem?_take_of_lt (by omega)) ?_
  refine down_idx less (swap q.h 0 (q.h.length - 1)) 0 (q.h.length - 1)
    (by rw [length_swap]; omega) (by omega) ?_ k hkn
  intro k2 hk2n hk20
  refine lastOk_of_getElem?_eq (getElem?_swap_ne q.h hk20 (by omega)) (hq k2 (by omega))

end Ops

end Prio

namespace Prio

section PopPerm

variable {α : Type} (less : α → α → Bool)

theorem vals_decomp {h : List (Elem α)} {n : Nat} (hl : h.length = n + 1)
    {v : α} (hv : valAt h n = some v) :
    vals h = vals (h.take n) ++ [v] := by
  have hn : n < h.length := by omega
  have hsplit : h = h.take n ++ h.drop n := (List.take_append_drop n h).symm
  have hdrop : h.drop n = [h[n]] := by
    rw [List.drop_eq_getElem_cons hn]
    have : h.drop (n + 1) = [] := List.drop_of_length_le (by omega)
    rw [this]
  have hval : h[n].val = v := by
    unfold valAt at hv
    rw [List.getElem?_eq_getElem hn] at hv
    simpa using hv
  calc vals h = vals (h.take n ++ h.drop n) := by rw [← hsplit]
    _ = vals (h.take n) ++ vals (h.drop n) := by unfold vals; rw [List.map_append]
    _ = vals (h.take n) ++ [v] := by rw [hdrop]; unfold vals; simp [hval]

theorem pop_perm {q : Queue α} {x : Elem α} {q2 : Queue α}
    (hp : pop less q = .ok (x, q2)) :
    List.Perm (x.val :: vals q2.h) (vals q.h) := by
  obtain ⟨h0, rfl⟩ := pop_ok_elim less hp
  have hl0 : 0 < q.h.length := by
    rcases List.getElem?_eq_some_iff.1 h0 with ⟨hlt, _⟩
    omega
  have hx0 : valAt q.h 0 = some x.val := by
    unfold valAt
    rw [h0]
    rfl
  have hlen3 : (down less (swap q.h 0 (q.h.length - 1)) 0 (q.h.length - 1)).length
      = q.h.length := by
    rw [down_length, length_swap]
  have hvn : valAt (down less (swap q.h 0 (q.h.length - 1)) 0 (q.h.length - 1))
      (q.h.length - 1) = some x.val := by
    rcases Nat.eq_zero_or_pos (q.h.length - 1) with hn0 | hn0
    · rw [hn0, down_eq_stop1 less (by omega), valAt_notify,
        valAt_swap_fst q.h 0 0 (by omega) (by omega)]
      exact hx0
    · have hfr := down_frame less (swap q.h 0 (q.h.length - 1)) 0 (q.h.length - 1)
        (q.h.length - 1) (by omega) (Or.inr (le_refl _))
      rw [valAt_eq_of_getElem?_eq hfr,
        valAt_swap_snd q.h 0 (q.h.length - 1) (by omega) (by omega)]
      exact hx0
  have hperm : List.Perm
      (vals (down less (swap q.h 0 (q.h.length - 1)) 0 (q.h.length - 1))) (vals q.h) :=
    (vals_down_perm less _ 0 _).trans (vals_swap_perm q.h 0 (q.h.length - 1))
  have hdec := @vals_decomp α _ (q.h.length - 1) (by omega) x.val hvn
  rw [hdec] at hperm
  exact ((List.perm_append_singleton x.val _).symm.trans hperm)

theorem pop_min
    (hasym : ∀ a b, less a b = true → less b a = false)
    (hneg : ∀ a b c, less a b = false → less b c = false → less a c = false)
    {q : Queue α} {x : Elem α} {q2 : Queue α}
    (hq : heapInv less q.h) (hp : pop less q = .ok (x, q2)) :
    ∀ v, v ∈ vals q.h → less v x.val = false := by
  obtain ⟨h0, _⟩ := pop_ok_elim less hp
  intro v hv
  obtain ⟨k, hk⟩ := List.mem_iff_getElem?.1 hv
  have hkl : k < q.h.length := by
    unfold vals at hk
    rcases List.getElem?_eq_some_iff.1 hk with ⟨hlt, _⟩
    rw [List.length_map] at hlt
    exact hlt
  have hchain := heap_chain less hasym hneg q.h q.h.length (le_refl _)
    (fun k2 hk2 hk20 => hq k2 hk2 hk20) k 0 (isDesc_zero k) hkl
  rw [lessIdx_eq_valAt] at hchain
  have hvk : valAt q.h k = some v := by
    unfold vals at hk
    rw [List.getElem?_map] at hk
    unfold valAt
    exact hk
  have hv0 : valAt q.h 0 = some x.val := by
    unfold valAt
    rw [h0]
    rfl
  rw [hvk, hv0] at hchain
  exact hchain

end PopPerm

end Prio

namespace Prio

section RemoveOps

variable {α : Type} (less : α → α → Bool)

theorem remove_nat_eq {q : Queue α} {k : Nat} {x : Elem α} (hk : q.h[k]? = some x) :
    remove less q (k : Int) =
      if k = q.h.length - 1 then .ok (x, ⟨q.h.take (q.h.length - 1)⟩)
      else .ok (x, ⟨(up less (down less (swap q.h k (q.h.length - 1)) k
        (q.h.length - 1)) k).take (q.h.length - 1)⟩) := by
  unfold remove
  rw [if_neg (by omega)]
  have ht : (k : Int).toNat = k := by omega
  rw [ht, hk]

theorem remove_ok_elim {q : Queue α} {i : Int} {x : Elem α} {q2 : Queue α}
    (hr : remove less q i = .ok (x, q2)) :
    ∃ k : Nat, i = (k : Int) ∧ q.h[k]? = some x ∧
      ((k = q.h.length - 1 ∧ q2 = ⟨q.h.take (q.h.length - 1)⟩) ∨
       (k ≠ q.h.length - 1 ∧
        q2 = ⟨(up less (down less (swap q.h k (q.h.length - 1)) k
          (q.h.length - 1)) k).take (q.h.length - 1)⟩)) := by
  unfold remove at hr
  by_cases hneg : i < 0
  · rw [if_pos hneg] at hr
    exact Outcome.noConfusion hr
  · rw [if_neg hneg] at hr
    refine ⟨i.toNat, by omega, ?_⟩
    split at hr
    · exact Outcome.noConfusion hr
    · rename_i y hm
      have hr2 : (if i.toNat = q.h.length - 1 then
            Outcome.ok (y, (⟨List.take (q.h.length - 1) q.h⟩ : Queue α))
          else
            Outcome.ok (y, (⟨List.take (q.h.length - 1)
              (up less (down less (swap q.h i.toNat (q.h.length - 1)) i.toNat
                (q.h.length - 1)) i.toNat)⟩ : Queue α))) = Outcome.ok (x, q2) := hr
      by_cases hlast : i.toNat = q.h.length - 1
      · rw [if_pos hlast] at hr2
        simp only [Outcome.ok.injEq, Prod.mk.injEq] at hr2
        exact ⟨by rw [hm, hr2.1], Or.inl ⟨hlast, hr2.2.symm⟩⟩
      · rw [if_neg hlast] at hr2
        simp only [Outcome.ok.injEq, Prod.mk.injEq] at hr2
        exact ⟨by rw [hm, hr2.1], Or.inr ⟨hlast, hr2.2.symm⟩⟩

theorem remove_perm_last {q : Queue α} {x : Elem α}
    (hk : q.h[q.h.length - 1]? = some x) (hl0 : 0 < q.h.length) :
    List.Perm (x.val :: vals (q.h.take (q.h.length - 1))) (vals q.h) := by
  have hx : valAt q.h (q.h.length - 1) = some x.val := by
    unfold valAt
    rw [hk]
    rfl
  have hdec := @vals_decomp α q.h (q.h.length - 1) (by omega) x.val hx
  rw [hdec]
  exact (List.perm_append_singleton x.val _).symm

end RemoveOps

end Prio

namespace Prio

section RemoveMid

variable {α : Type} (less : α → α → Bool)

theorem remove_idx_mid (q : Queue α) (k : Nat) (hq : idxInv q.h)
    (hkn : k < q.h.length - 1) :
    idxInv ((up less (down less (swap q.h k (q.h.length - 1)) k
      (q.h.length - 1)) k).take (q.h.length - 1)) := by
  intro k2 hk2l
  rw [List.length_take, up_length, down_length, length_swap] at hk2l
  have hk2n : k2 < q.h.length - 1 := by omega
  refine lastOk_of_getElem?_eq (List.getElem?_take_of_lt (by omega)) ?_
  refine up_idx less (down less (swap q.h k (q.h.length - 1)) k (q.h.length - 1)) k
    (q.h.length - 1) (by rw [down_length, length_swap]; omega) (by omega) ?_ k2 hk2n
  intro k3 hk3n hk3k
  refine down_idx less (swap q.h k (q.h.length - 1)) k (q.h.length - 1)
    (by rw [length_swap]; omega) (by omega) ?_ k3 hk3n
  intro k4 hk4n hk4k
  refine lastOk_of_getElem?_eq (getElem?_swap_ne q.h hk4k (by omega)) (hq k4 (by omega))

theorem remove_heap_mid
    (hasym : ∀ a b, less a b = true → less b a = false)
    (hneg : ∀ a b c, less a b = false → less b c = false → less a c = false)
    (q : Queue α) (k : Nat) (hq : heapInv less q.h) (hkn : k < q.h.length - 1) :
    heapInv less ((up less (down less (swap q.h k (q.h.length - 1)) k
      (q.h.length - 1)) k).take (q.h.length - 1)) := by
  have hchain : ∀ d a, isDesc a d = true → d < q.h.length →
      lessIdx less q.h d a = false := by
    intro d a hd hdl
    exact heap_chain less hasym hneg q.h q.h.length (le_refl _) hq d a hd hdl
  -- the ordered-pairs hypothesis for `down` at `k`
  have hA : ∀ k3, k3 < q.h.length - 1 → k < (k3 - 1) / 2 →
      lessIdx less (swap q.h k (q.h.length - 1)) k3 ((k3 - 1) / 2) = false := by
    intro k3 hk3n hk3p
    have hg : 2 * ((k3 - 1) / 2) + 1 ≤ k3 := by omega
    rw [lessIdx_ext less
      (@valAt_swap_ne α q.h k (q.h.length - 1) k3 (by omega) (by omega))
      (@valAt_swap_ne α q.h k (q.h.length - 1) ((k3 - 1) / 2) (by omega) (by omega))]
    exact hq k3 (by omega) (by omega)
  have hdownC := down_heap less hasym hneg (swap q.h k (q.h.length - 1)) k
    (q.h.length - 1) (by rw [length_swap]; omega) (by omega) hA
  -- pairs not below `k` are untouched and ordered
  have h1 : ∀ k2, k2 < q.h.length - 1 → 0 < k2 → k2 ≠ k →
      lessIdx less (down less (swap q.h k (q.h.length - 1)) k (q.h.length - 1)) k2
        ((k2 - 1) / 2) = false := by
    intro k2 hk2n hk20 hk2k
    rcases le_or_lt k ((k2 - 1) / 2) with hge | hlt
    · exact hdownC k2 hk2n hk20 hge
    · have hk2d : isDesc k k2 = false := by
        cases hdk : isDesc k k2 with
        | false => rfl
        | true =>
          have hgt : k < k2 := by
            have := isDesc_le hdk
            omega
          rw [isDesc_step hgt] at hdk
          have := isDesc_le hdk
          omega
      have hfk2 := down_frame less (swap q.h k (q.h.length - 1)) k (q.h.length - 1)
        k2 hk2k (Or.inl hk2d)
      have hfp := down_frame less (swap q.h k (q.h.length - 1)) k (q.h.length - 1)
        ((k2 - 1) / 2) (by omega) (Or.inl (isDesc_lt_false hlt))
      have hg : 2 * ((k2 - 1) / 2) + 1 ≤ k2 := by omega
      rw [lessIdx_ext less (valAt_eq_of_getElem?_eq hfk2) (valAt_eq_of_getElem?_eq hfp)]
      rw [lessIdx_ext less
        (@valAt_swap_ne α q.h k (q.h.length - 1) k2 hk2k (by omega))
        (@valAt_swap_ne α q.h k (q.h.length - 1) ((k2 - 1) / 2) (by omega) (by omega))]
      exact hq k2 (by omega) hk20
  -- the children-versus-grandparent hypothesis for `up` at `k`
  have h2 : ∀ c, (c = 2 * k + 1 ∨ c = 2 * k + 2) → c < q.h.length - 1 → 0 < k →
      lessIdx less (down less (swap q.h k (q.h.length - 1)) k (q.h.length - 1)) c
        ((k - 1) / 2) = false := by
    intro c hc12 hcn hk0
    have hkgp : isDesc ((k - 1) / 2) k = true := isDesc_child (by omega)
    have hgpk : (k - 1) / 2 < k := by omega
    rcases down_unfold_cases less (swap q.h k (q.h.length - 1)) k (q.h.length - 1) with
      hcaseA | ⟨c0, hc012, hc0n, hc0less, hcaseB⟩
    · -- `down` stopped immediately: the children kept their original values
      rw [hcaseA]
      rw [lessIdx_ext less (valAt_notify (swap q.h k (q.h.length - 1)) k c)
        (valAt_notify (swap q.h k (q.h.length - 1)) k ((k - 1) / 2))]
      rw [lessIdx_ext less
        (@valAt_swap_ne α q.h k (q.h.length - 1) c (by omega) (by omega))
        (@valAt_swap_ne α q.h k (q.h.length - 1) ((k - 1) / 2) (by omega) (by omega))]
      exact hchain c ((k - 1) / 2)
        (isDesc_trans hkgp c (isDesc_child hc12)) (by omega)
    · -- `down` swapped with child `c0`: the last element is not `Less` than `c0`
      have hxc0 : lessIdx less q.h (q.h.length - 1) c0 = false := by
        rw [← hc0less]
        refine (lessIdx_ext less ?_ ?_).symm
        · exact valAt_swap_fst q.h k (q.h.length - 1) (by omega) (by omega)
        · exact @valAt_swap_ne α q.h k (q.h.length - 1) c0 (by omega) (by omega)
      have hc0gp : lessIdx less q.h c0 ((k - 1) / 2) = false :=
        hchain c0 ((k - 1) / 2) (isDesc_trans hkgp c0 (isDesc_child hc012)) (by omega)
      have hxgp : lessIdx less q.h (q.h.length - 1) ((k - 1) / 2) = false :=
        lessIdx_negtrans less hneg (by omega) (by omega) (by omega) hxc0 hc0gp
      rw [hcaseB]
      have hlen2 : q.h.length - 1 ≤
          (notify (swap (swap q.h k (q.h.length - 1)) k c0) k).length := by
        rw [length_notify, length_swap, length_swap]
        omega
      have hvgp : valAt (down less (notify (swap (swap q.h k (q.h.length - 1)) k c0) k)
          c0 (q.h.length - 1)) ((k - 1) / 2) = valAt q.h ((k - 1) / 2) := by
        have hfgp2 := down_frame less
          (notify (swap (swap q.h k (q.h.length - 1)) k c0) k) c0 (q.h.length - 1)
          ((k - 1) / 2) (by omega) (Or.inl (isDesc_lt_false (by omega)))
        rw [valAt_eq_of_getElem?_eq hfgp2, valAt_notify,
          @valAt_swap_ne α (swap q.h k (q.h.length - 1)) k c0 ((k - 1) / 2)
            (by omega) (by omega),
          @valAt_swap_ne α q.h k (q.h.length - 1) ((k - 1) / 2) (by omega) (by omega)]
      rcases eq_or_ne c c0 with rfl | hcc0
      · -- the child that was swapped with
        obtain ⟨d, hdD, hdn, hdv⟩ := down_subtree less
          (notify (swap (swap q.h k (q.h.length - 1)) k c) k) c (q.h.length - 1)
          hlen2 c (isDesc_self c) hcn
        rcases eq_or_ne d c with hdc | hdc
        · -- the last element itself ended at the child position
          have hvc : valAt (down less
              (notify (swap (swap q.h k (q.h.length - 1)) k c) k) c (q.h.length - 1)) c
              = valAt q.h (q.h.length - 1) := by
            rw [hdv, hdc, valAt_notify,
              valAt_swap_snd (swap q.h k (q.h.length - 1)) k c
                (by rw [length_swap]; omega) (by rw [length_swap]; omega),
              valAt_swap_fst q.h k (q.h.length - 1) (by omega) (by omega)]
          rw [lessIdx_ext less hvc hvgp]
          exact hxgp
        · -- a deeper element of the subtree moved up to the child position
          have hcd : c < d := by
            have := isDesc_le hdD
            omega
          have hvc : valAt (down less
              (notify (swap (swap q.h k (q.h.length - 1)) k c) k) c (q.h.length - 1)) c
              = valAt q.h d := by
            rw [hdv, valAt_notify,
              @valAt_swap_ne α (swap q.h k (q.h.length - 1)) k c d (by omega) (by omega),
              @valAt_swap_ne α q.h k (q.h.length - 1) d (by omega) (by omega)]
          rw [lessIdx_ext less hvc hvgp]
          exact hchain d ((k - 1) / 2)
            (isDesc_trans hkgp d (isDesc_trans (isDesc_child hc012) d hdD)) (by omega)
      · -- the sibling of the swapped child kept its original value
        have hsib : isDesc c0 c = false := by
          apply isDesc_sibling k
          rcases hc012 with h0l | h0r
          · left
            exact ⟨h0l, by omega⟩
          · right
            exact ⟨h0r, by omega⟩
        have hfc := down_frame less
          (notify (swap (swap q.h k (q.h.length - 1)) k c0) k) c0 (q.h.length - 1)
          c hcc0 (Or.inl hsib)
        have hvc : valAt (down less
            (notify (swap (swap q.h k (q.h.length - 1)) k c0) k) c0 (q.h.length - 1)) c
            = valAt q.h c := by
          rw [valAt_eq_of_getElem?_eq hfc, valAt_notify,
            @valAt_swap_ne α (swap q.h k (q.h.length - 1)) k c0 c (by omega) hcc0,
            @valAt_swap_ne α q.h k (q.h.length - 1) c (by omega) (by omega)]
        rw [lessIdx_ext less hvc hvgp]
        exact hchain c ((k - 1) / 2)
          (isDesc_trans hkgp c (isDesc_child hc12)) (by omega)
  -- combine: `up` restores the full invariant, and truncation preserves it
  intro k2 hk2l hk20
  rw [List.length_take, up_length, down_length, length_swap] at hk2l
  have hk2n : k2 < q.h.length - 1 := by omega
  have hg : 2 * ((k2 - 1) / 2) + 1 ≤ k2 := by omega
  rw [lessIdx_ext less (valAt_take (by omega)) (valAt_take (by omega))]
  exact up_heap less hasym hneg
    (down less (swap q.h k (q.h.length - 1)) k (q.h.length - 1)) k (q.h.length - 1)
    (by rw [down_length, length_swap]; omega) (by omega) h1 h2 k2 hk2n hk20

end RemoveMid

end Prio

namespace Prio

section MoreOps

variable {α : Type} (less : α → α → Bool)

theorem remove_perm_mid (q : Queue α) (k : Nat) (x : Elem α)
    (hk : q.h[k]? = some x) (hkn : k < q.h.length - 1) :
    List.Perm (x.val :: vals ((up less (down less (swap q.h k (q.h.length - 1)) k
      (q.h.length - 1)) k).take (q.h.length - 1))) (vals q.h) := by
  have hfu := up_frame less (down less (swap q.h k (q.h.length - 1)) k
    (q.h.length - 1)) k (q.h.length - 1) (isDesc_lt_false (by omega))
  have hfd := down_frame less (swap q.h k (q.h.length - 1)) k (q.h.length - 1)
    (q.h.length - 1) (by omega) (Or.inr (le_refl _))
  have hvn : valAt (up less (down less (swap q.h k (q.h.length - 1)) k
      (q.h.length - 1)) k) (q.h.length - 1) = some x.val := by
    rw [valAt_eq_of_getElem?_eq hfu, valAt_eq_of_getElem?_eq hfd,
      valAt_swap_snd q.h k (q.h.length - 1) (by omega) (by omega)]
    unfold valAt
    rw [hk]
    rfl
  have hlen4 : (up less (down less (swap q.h k (q.h.length - 1)) k
      (q.h.length - 1)) k).length = q.h.length := by
    rw [up_length, down_length, length_swap]
  have hperm : List.Perm (vals (up less (down less (swap q.h k (q.h.length - 1)) k
      (q.h.length - 1)) k)) (vals q.h) :=
    (vals_up_perm less _ k).trans
      ((vals_down_perm less _ k _).trans (vals_swap_perm q.h k (q.h.length - 1)))
  have hdec := @vals_decomp α _ (q.h.length - 1) (by omega) x.val hvn
  rw [hdec] at hperm
  exact ((List.perm_append_singleton x.val _).symm.trans hperm)

theorem heapify_length (h : List (Elem α)) : (heapify less h).length = h.length := by
  rw [heapify, heapifyAux_length]

theorem new_len (x : List (Elem α)) : (new less x).h.length = x.length := by
  show (heapify less (initIdx x x.length)).length = x.length
  rw [heapify_length, initIdx_length]

theorem new_heap
    (hasym : ∀ a b, less a b = true → less b a = false)
    (hneg : ∀ a b c, less a b = false → less b c = false → less a c = false)
    (x : List (Elem α)) : heapInv less (new less x).h :=
  heapify_heap less hasym hneg (initIdx x x.length)

theorem new_idx (x : List (Elem α)) : idxInv (new less x).h := by
  intro k hkl
  have hkl2 : k < (initIdx x x.length).length := by
    rw [new_len] at hkl
    rw [initIdx_length]
    exact hkl
  refine heapify_idx less (initIdx x x.length) ?_ k hkl2
  intro k2 hk2
  refine initIdx_lastOk x.length x (le_refl _) k2 ?_
  rw [initIdx_length] at hk2
  exact hk2

end MoreOps

end Prio

namespace Prio

section RoundTrip

variable {α : Type} (less : α → α → Bool)

theorem pushAll_heap
    (hasym : ∀ a b, less a b = true → less b a = false)
    (hneg : ∀ a b c, less a b = false → less b c = false → less a c = false) :
    ∀ (xs : List (Elem α)) (q : Queue α), heapInv less q.h →
      heapInv less (pushAll less q xs).h := by
  intro xs
  induction xs with
  | nil => intro q hq; exact hq
  | cons x xs ih =>
    intro q hq
    exact ih (push less q x) (push_heap less hasym hneg q x hq)

theorem pushAll_idx : ∀ (xs : List (Elem α)) (q : Queue α), idxInv q.h →
    idxInv (pushAll less q xs).h := by
  intro xs
  induction xs with
  | nil => intro q hq; exact hq
  | cons x xs ih =>
    intro q hq
    exact ih (push less q x) (push_idx less q x hq)

theorem pushAll_len : ∀ (xs : List (Elem α)) (q : Queue α),
    (pushAll less q xs).h.length = q.h.length + xs.length := by
  intro xs
  induction xs with
  | nil => intro q; rfl
  | cons x xs ih =>
    intro q
    show (pushAll less (push less q x) xs).h.length = q.h.length + (xs.length + 1)
    rw [ih, push_len]
    omega

theorem pushAll_vals : ∀ (xs : List (Elem α)) (q : Queue α),
    List.Perm (vals (pushAll less q xs).h) (vals q.h ++ xs.map (·.val)) := by
  intro xs
  induction xs with
  | nil =>
    intro q
    show List.Perm (vals q.h) (vals q.h ++ List.map (fun e : Elem α => e.val) [])
    simp
  | cons x xs ih =>
    intro q
    show List.Perm (vals (pushAll less (push less q x) xs).h) _
    refine (ih (push less q x)).trans ?_
    have happ := (push_vals less q x).append_right (xs.map (·.val))
    refine happ.trans ?_
    rw [List.append_assoc]
    simp

theorem popAll_step {q q2 : Queue α} {x : Elem α} (hp : pop less q = .ok (x, q2))
    (m : Nat) : popAll less q (m + 1) =
      (x :: (popAll less q2 m).1, (popAll less q2 m).2) := by
  show (match pop less q with
    | .ok (x, q2) =>
      let r := popAll less q2 m
      (x :: r.1, r.2)
    | .indexOutOfRange => ([], q)) = _
  rw [hp]

theorem popAll_spec
    (hasym : ∀ a b, less a b = true → less b a = false)
    (hneg : ∀ a b c, less a b = false → less b c = false → less a c = false) :
    ∀ (m : Nat) (q : Queue α), heapInv less q.h → q.h.length = m →
      List.Perm ((popAll less q m).1.map (·.val)) (vals q.h) ∧
      List.Pairwise (fun a b => less b a = false) ((popAll less q m).1.map (·.val)) ∧
      (popAll less q m).2.h.length = 0 := by
  intro m
  induction m with
  | zero =>
    intro q hq hlen
    have hnil : q.h = [] := List.length_eq_zero.1 hlen
    refine ⟨?_, ?_, hlen⟩
    · rw [hnil]
      exact List.Perm.refl _
    · exact List.Pairwise.nil
  | succ m ih =>
    intro q hq hlen
    have h0 : 0 < q.h.length := by omega
    obtain ⟨x, hx⟩ : ∃ x, q.h[0]? = some x := by
      rw [List.getElem?_eq_getElem h0]
      exact ⟨_, rfl⟩
    have hp : pop less q = .ok (x, ⟨(down less (swap q.h 0 (q.h.length - 1)) 0
        (q.h.length - 1)).take (q.h.length - 1)⟩) := by
      unfold pop
      rw [hx]
    have hstep := popAll_step less hp m
    have hq2 := pop_heap less hasym hneg hq hp
    have hlen2 := pop_len less hp
    obtain ⟨ihp, ihs, ihl⟩ := ih _ hq2 (by omega)
    have hmin := pop_min less hasym hneg hq hp
    have hpp := pop_perm less hp
    refine ⟨?_, ?_, ?_⟩
    · rw [hstep]
      show List.Perm (x.val :: _) (vals q.h)
      exact (ihp.cons x.val).trans hpp
    · rw [hstep]
      show List.Pairwise _ (x.val :: _)
      refine List.Pairwise.cons ?_ ihs
      intro b hb
      have hb2 : b ∈ vals q.h := by
        have := ihp.mem_iff.1 hb
        exact (hpp.mem_iff).1 (List.mem_cons_of_mem _ this)
      exact hmin b hb2
    · rw [hstep]
      exact ihl

end RoundTrip

end Prio

namespace Prio

section ClaimSupport

theorem natLess_asym : ∀ a b : Nat, natLess a b = true → natLess b a = false := by
  intro a b hab
  unfold natLess at hab ⊢
  simp at hab ⊢
  omega

theorem natLess_neg : ∀ a b c : Nat,
    natLess a b = false → natLess b c = false → natLess a c = false := by
  intro a b c hab hbc
  unfold natLess at hab hbc ⊢
  simp at hab hbc ⊢
  omega

theorem cons_eraseIdx_perm {β : Type} (l : List β) (k : Nat) (a : β)
    (hk : l[k]? = some a) : List.Perm l (a :: l.eraseIdx k) := by
  have hkl : k < l.length := by
    rcases List.getElem?_eq_some_iff.1 hk with ⟨hlt, _⟩
    exact hlt
  have hsplit : l = l.take k ++ l.drop k := (List.take_append_drop k l).symm
  have hdrop : l.drop k = a :: l.drop (k + 1) := by
    rw [List.drop_eq_getElem_cons hkl]
    rcases List.getElem?_eq_some_iff.1 hk with ⟨hlt, hv⟩
    rw [hv]
  have herase : l.eraseIdx k = l.take k ++ l.drop (k + 1) :=
    List.eraseIdx_eq_take_drop_succ l k
  have hstep : l = l.take k ++ a :: l.drop (k + 1) := by
    rw [← hdrop, ← hsplit]
  rw [herase]
  conv_lhs => rw [hstep]
  exact List.perm_middle

-- concrete evaluation lemmas for the counterexamples
theorem eval_push1 : push natLess ⟨[]⟩ ⟨1, []⟩ = ⟨[⟨1, [0]⟩]⟩ := by
  show (⟨up natLess [⟨1, []⟩] 0⟩ : Queue Nat) = ⟨[⟨1, [0]⟩]⟩
  rw [up_eq_stop natLess (Or.inl rfl)]
  decide

theorem eval_push2 : push natLess ⟨[⟨1, [0]⟩]⟩ ⟨2, []⟩ = ⟨[⟨1, [0]⟩, ⟨2, [1]⟩]⟩ := by
  show (⟨up natLess [⟨1, [0]⟩, ⟨2, []⟩] 1⟩ : Queue Nat) = ⟨[⟨1, [0]⟩, ⟨2, [1]⟩]⟩
  rw [up_eq_stop natLess (Or.inr (by decide))]
  decide

theorem eval_pop2 : pop natLess ⟨[⟨1, [0]⟩, ⟨2, [1]⟩]⟩ =
    .ok (⟨1, [0]⟩, ⟨[⟨2, [0, 1]⟩]⟩) := by
  have h1 : (down natLess (swap [⟨1, [0]⟩, ⟨2, [1]⟩] 0 1) 0 1 : List (Elem Nat))
      = [⟨2, [0, 1]⟩, ⟨1, [0]⟩] := by
    rw [down_eq_stop1 natLess (by decide)]
    decide
  show Outcome.ok ((⟨1, [0]⟩ : Elem Nat),
      (⟨(down natLess (swap [⟨1, [0]⟩, ⟨2, [1]⟩] 0 1) 0 1).take 1⟩ : Queue Nat)) =
    Outcome.ok ((⟨1, [0]⟩ : Elem Nat), (⟨[⟨2, [0, 1]⟩]⟩ : Queue Nat))
  rw [h1]
  rfl

end ClaimSupport

end Prio

namespace Prio

/-- C1: for every queue reachable by any sequence of `New`/`Push`/`Pop`/`Remove`
calls (with in-range arguments, encoded by the successful-call constructors of
`Reachable`, and a consistent `LessThan` ordering, encoded by asymmetry and
negative transitivity of `less`), the min-heap invariant holds after each
public operation returns: no element is strictly `Less` than its parent. -/
theorem c1_heap_invariant {α : Type} (less : α → α → Bool)
    (hasym : ∀ a b, less a b = true → less b a = false)
    (hneg : ∀ a b c, less a b = false → less b c = false → less a c = false)
    (q : Queue α) (hr : Reachable less q) : heapInv less q.h := by
  induction hr with
  | new x => exact new_heap less hasym hneg x
  | push x hr ih => exact push_heap less hasym hneg _ x ih
  | pop hr hp ih => exact pop_heap less hasym hneg ih hp
  | remove hr hrm ih =>
    obtain ⟨k, hik, hk, hcase⟩ := remove_ok_elim less hrm
    obtain ⟨hkl, hkv⟩ := List.getElem?_eq_some_iff.1 hk
    rcases hcase with ⟨hlast, rfl⟩ | ⟨hne, rfl⟩
    · exact heapInv_take less _ ih
    · exact remove_heap_mid less hasym hneg _ k ih (by omega)

theorem c1_heap_invariant_witness :
    heapInv natLess (new natLess [⟨2, []⟩, ⟨1, []⟩, ⟨3, []⟩]).h :=
  c1_heap_invariant natLess natLess_asym natLess_neg _
    (Reachable.new [⟨2, []⟩, ⟨1, []⟩, ⟨3, []⟩])

/-- C5: for every queue reachable by any sequence of public operations, every
element currently stored in the queue was most recently notified (via its
`Index` callback) of exactly its current position in the backing sequence. -/
theorem c5_index_accuracy {α : Type} (less : α → α → Bool)
    (q : Queue α) (hr : Reachable less q) : idxInv q.h := by
  induction hr with
  | new x => exact new_idx less x
  | push x hr ih => exact push_idx less _ x ih
  | pop hr hp ih => exact pop_idx less ih hp
  | remove hr hrm ih =>
    obtain ⟨k, hik, hk, hcase⟩ := remove_ok_elim less hrm
    obtain ⟨hkl, hkv⟩ := List.getElem?_eq_some_iff.1 hk
    rcases hcase with ⟨hlast, rfl⟩ | ⟨hne, rfl⟩
    · exact idxInv_take _ ih
    · exact remove_idx_mid less _ k ih (by omega)

theorem c5_index_accuracy_witness :
    idxInv (new natLess [⟨2, []⟩, ⟨1, []⟩, ⟨3, []⟩]).h :=
  c5_index_accuracy natLess _ (Reachable.new [⟨2, []⟩, ⟨1, []⟩, ⟨3, []⟩])

/-- C9: the zero-value `Queue` (a `nil` backing slice, modelled as `⟨[]⟩`) is a
valid empty queue: `Len()` returns 0 on it, and it is equal to the queue
produced by `New` with no elements, so `Push` and all subsequent operations
behave identically on the two. -/
theorem c9_zero_value {α : Type} (less : α → α → Bool) :
    lenQ (⟨[]⟩ : Queue α) = 0 ∧ new less [] = (⟨[]⟩ : Queue α) ∧
      ∀ x : Elem α, push less (⟨[]⟩ : Queue α) x = push less (new less []) x := by
  have hnew : new less [] = (⟨[]⟩ : Queue α) := by
    simp [new, heapify, initIdx, heapifyAux]
  exact ⟨rfl, hnew, fun x => by rw [hnew]⟩

end Prio

namespace Prio

/-- C2: pushing all elements of `xs` onto an initially empty queue and then
popping `xs.length` times returns a permutation of those elements in
non-decreasing priority order (no later element is `Less` than an earlier
one, so each popped element is a minimum of what remained), and `Len()` is 0
afterwards. -/
theorem c2_round_trip {α : Type} (less : α → α → Bool)
    (hasym : ∀ a b, less a b = true → less b a = false)
    (hneg : ∀ a b c, less a b = false → less b c = false → less a c = false)
    (xs : List (Elem α)) :
    List.Perm ((popAll less (pushAll less ⟨[]⟩ xs) xs.length).1.map (·.val))
      (xs.map (·.val)) ∧
    List.Pairwise (fun a b => less b a = false)
      ((popAll less (pushAll less ⟨[]⟩ xs) xs.length).1.map (·.val)) ∧
    lenQ (popAll less (pushAll less ⟨[]⟩ xs) xs.length).2 = 0 := by
  have hq : heapInv less (pushAll less ⟨[]⟩ xs).h := by
    refine pushAll_heap less hasym hneg xs ⟨[]⟩ ?_
    intro k hk hk0
    simp at hk
  have hlen : (pushAll less ⟨[]⟩ xs).h.length = xs.length := by
    rw [pushAll_len]
    simp
  obtain ⟨hperm, hsort, hzero⟩ := popAll_spec less hasym hneg xs.length _ hq hlen
  refine ⟨hperm.trans ?_, hsort, hzero⟩
  have hv := pushAll_vals less xs ⟨[]⟩
  simpa using hv

theorem c2_round_trip_witness :
    List.Perm ((popAll natLess (pushAll natLess ⟨[]⟩
        ([⟨2, []⟩, ⟨1, []⟩] : List (Elem Nat))) 2).1.map (·.val))
      (([⟨2, []⟩, ⟨1, []⟩] : List (Elem Nat)).map (·.val)) ∧
    List.Pairwise (fun a b => natLess b a = false)
      ((popAll natLess (pushAll natLess ⟨[]⟩
        ([⟨2, []⟩, ⟨1, []⟩] : List (Elem Nat))) 2).1.map (·.val)) ∧
    lenQ (popAll natLess (pushAll natLess ⟨[]⟩
      ([⟨2, []⟩, ⟨1, []⟩] : List (Elem Nat))) 2).2 = 0 :=
  c2_round_trip natLess natLess_asym natLess_neg [⟨2, []⟩, ⟨1, []⟩]

/-- C3 counterexample: on the empty queue, `Pop` and `Peek` do not fail with a
defined `EmptyQueueError` surfaced to the caller — no such error exists in the
code; both perform an out-of-bounds slice access (`x := h[0]` on an empty
slice), modelled as the index-out-of-range runtime panic. -/
theorem c3_counterexample :
    pop natLess (⟨[]⟩ : Queue Nat) = Outcome.indexOutOfRange ∧
    peek (⟨[]⟩ : Queue Nat) = Outcome.indexOutOfRange := by
  exact ⟨rfl, rfl⟩

/-- C3 (amended): for every queue with `Len() == 0`, `Pop` and `Peek` perform an
out-of-bounds slice access — a runtime index-out-of-range panic, not a defined
`EmptyQueueError` value (none exists in the code). -/
theorem c3_empty_pop_peek {α : Type} (less : α → α → Bool) (q : Queue α)
    (h : lenQ q = 0) :
    pop less q = Outcome.indexOutOfRange ∧ peek q = Outcome.indexOutOfRange := by
  have hnil : q.h = [] := List.length_eq_zero.1 h
  unfold pop peek
  rw [hnil]
  exact ⟨rfl, rfl⟩

theorem c3_empty_pop_peek_witness :
    lenQ (⟨[]⟩ : Queue Nat) = 0 ∧
      (pop natLess (⟨[]⟩ : Queue Nat) = Outcome.indexOutOfRange ∧
       peek (⟨[]⟩ : Queue Nat) = Outcome.indexOutOfRange) :=
  ⟨rfl, c3_empty_pop_peek natLess ⟨[]⟩ rfl⟩

/-- C4 counterexample: `Remove` with an index outside `[0, Len())` is not
bounds-checked and does not fail with a defined `InvalidIndexError`; it
performs an out-of-bounds slice access (`x := h[i]`), modelled as the
index-out-of-range runtime panic — here on a one-element queue with index 3
and with index -1. -/
theorem c4_counterexample :
    remove natLess (⟨[⟨5, [0]⟩]⟩ : Queue Nat) 3 = Outcome.indexOutOfRange ∧
    remove natLess (⟨[⟨5, [0]⟩]⟩ : Queue Nat) (-1) = Outcome.indexOutOfRange := by
  exact ⟨rfl, rfl⟩

/-- C4 (amended): for every queue `q` and integer `i` outside `[0, q.Len())`,
`Remove(i)` performs an out-of-bounds slice access (runtime panic) before any
mutation, so no modified queue is produced; there is no `InvalidIndexError`
in the code. -/
theorem c4_remove_out_of_range {α : Type} (less : α → α → Bool) (q : Queue α)
    (i : Int) (h : i < 0 ∨ (q.h.length : Int) ≤ i) :
    remove less q i = Outcome.indexOutOfRange := by
  unfold remove
  rcases h with hneg2 | hge
  · rw [if_pos hneg2]
  · rw [if_neg (by omega), List.getElem?_eq_none (by omega)]

theorem c4_remove_out_of_range_witness :
    ((3 : Int) < 0 ∨ ((⟨[⟨5, [0]⟩]⟩ : Queue Nat).h.length : Int) ≤ 3) ∧
      remove natLess (⟨[⟨5, [0]⟩]⟩ : Queue Nat) 3 = Outcome.indexOutOfRange :=
  ⟨Or.inr (by decide), c4_remove_out_of_range natLess ⟨[⟨5, [0]⟩]⟩ 3
    (Or.inr (by decide))⟩

/-- C6 counterexample: popping from the two-element queue built by pushing
values 1 then 2 returns the element `⟨1, [0]⟩`: its notification history is
exactly the single insertion callback `[0]`, identical to its history before
the call (second conjunct), so no `Index` callback was invoked on it as part
of the removal — unlike on insertion, which did notify it. -/
theorem c6_counterexample :
    pop natLess (push natLess (push natLess ⟨[]⟩ ⟨1, []⟩) ⟨2, []⟩) =
      Outcome.ok (⟨1, [0]⟩, ⟨[⟨2, [0, 1]⟩]⟩) ∧
    (push natLess (push natLess ⟨[]⟩ ⟨1, []⟩) ⟨2, []⟩).h[0]? = some ⟨1, [0]⟩ := by
  rw [eval_push1, eval_push2]
  exact ⟨eval_pop2, rfl⟩

/-- C6 (amended): the core does not invoke the removed element's `Index`
callback as part of the removal.  `Pop` (on a queue of at least two elements)
and `Remove` return exactly the element value that was stored at the removed
position before the call, notification history included — so the last `Index`
argument it ever received dates from before the removal. -/
theorem c6_no_removal_callback {α : Type} (less : α → α → Bool) :
    (∀ (q : Queue α) (x : Elem α) (q2 : Queue α), 2 ≤ q.h.length →
      pop less q = .ok (x, q2) → q.h[0]? = some x) ∧
    (∀ (q : Queue α) (i : Int) (x : Elem α) (q2 : Queue α),
      remove less q i = .ok (x, q2) →
      ∃ k : Nat, i = (k : Int) ∧ q.h[k]? = some x) := by
  constructor
  · intro q x q2 _ hp
    exact (pop_ok_elim less hp).1
  · intro q i x q2 hr
    obtain ⟨k, hik, hk, _⟩ := remove_ok_elim less hr
    exact ⟨k, hik, hk⟩

theorem c6_no_removal_callback_witness :
    (⟨[⟨1, [0]⟩, ⟨2, [1]⟩]⟩ : Queue Nat).h[0]? = some ⟨1, [0]⟩ :=
  (c6_no_removal_callback natLess).1 ⟨[⟨1, [0]⟩, ⟨2, [1]⟩]⟩ ⟨1, [0]⟩ ⟨[⟨2, [0, 1]⟩]⟩
    (by decide) eval_pop2

end Prio

namespace Prio

/-- C7: for every well-formed queue (heap invariant and index accuracy hold)
and every valid index `k`, `Remove(k)` succeeds and returns exactly the
element stored at position `k` — the element whose most recent `Index`
callback argument was `k`; if `k` is the last index the sequence is simply
truncated; in all cases the remaining elements are the original multiset
minus that element, and the heap invariant holds over them. -/
theorem c7_remove_correct {α : Type} (less : α → α → Bool)
    (hasym : ∀ a b, less a b = true → less b a = false)
    (hneg : ∀ a b c, less a b = false → less b c = false → less a c = false)
    (q : Queue α) (k : Nat) (hq : heapInv less q.h) (hidx : idxInv q.h)
    (hk : k < q.h.length) :
    ∃ x q2, remove less q (k : Int) = .ok (x, q2) ∧
      q.h[k]? = some x ∧
      x.notifs.head? = some k ∧
      List.Perm (vals q2.h) ((vals q.h).eraseIdx k) ∧
      heapInv less q2.h ∧
      (k = q.h.length - 1 → q2.h = q.h.dropLast) := by
  obtain ⟨x, hx⟩ : ∃ x, q.h[k]? = some x := by
    rw [List.getElem?_eq_getElem hk]
    exact ⟨_, rfl⟩
  have hhead : x.notifs.head? = some k := by
    have hl := hidx k hk
    unfold lastOk at hl
    rw [hx] at hl
    simpa using hl
  have hvk : (vals q.h)[k]? = some x.val := by
    unfold vals
    rw [List.getElem?_map, hx]
    rfl
  have hqperm := cons_eraseIdx_perm (vals q.h) k x.val hvk
  rw [remove_nat_eq less hx]
  by_cases hlast : k = q.h.length - 1
  · rw [if_pos hlast]
    refine ⟨x, ⟨q.h.take (q.h.length - 1)⟩, rfl, hx, hhead, ?_, heapInv_take less _ hq,
      fun _ => (List.dropLast_eq_take q.h).symm⟩
    have hp := remove_perm_last (hlast ▸ hx) (by omega)
    exact (hp.trans hqperm).cons_inv
  · rw [if_neg hlast]
    have hkn : k < q.h.length - 1 := by omega
    refine ⟨x, _, rfl, hx, hhead, ?_, remove_heap_mid less hasym hneg q k hq hkn,
      fun he => absurd he hlast⟩
    have hp := remove_perm_mid less q k x hx hkn
    exact (hp.trans hqperm).cons_inv

theorem c7_remove_correct_witness :
    ∃ x q2, remove natLess (⟨[⟨1, [0]⟩, ⟨2, [1]⟩]⟩ : Queue Nat) ((0 : Nat) : Int) =
        .ok (x, q2) ∧
      (⟨[⟨1, [0]⟩, ⟨2, [1]⟩]⟩ : Queue Nat).h[0]? = some x ∧
      x.notifs.head? = some 0 ∧
      List.Perm (vals q2.h) ((vals (⟨[⟨1, [0]⟩, ⟨2, [1]⟩]⟩ : Queue Nat).h).eraseIdx 0) ∧
      heapInv natLess q2.h ∧
      (0 = (⟨[⟨1, [0]⟩, ⟨2, [1]⟩]⟩ : Queue Nat).h.length - 1 →
        q2.h = (⟨[⟨1, [0]⟩, ⟨2, [1]⟩]⟩ : Queue Nat).h.dropLast) :=
  c7_remove_correct natLess natLess_asym natLess_neg ⟨[⟨1, [0]⟩, ⟨2, [1]⟩]⟩ 0
    (by unfold heapInv; decide) (by unfold idxInv lastOk; decide) (by decide)

theorem eval_down_ties : down natLess [⟨5, []⟩, ⟨5, []⟩, ⟨5, []⟩] 0 3 =
    [⟨5, [0]⟩, ⟨5, []⟩, ⟨5, [2]⟩] := by
  have hpc : pickChild natLess [⟨5, []⟩, ⟨5, []⟩, ⟨5, []⟩] 0 3 = 2 := by decide
  rw [down_eq_rec natLess (by decide) (by rw [hpc]; decide), hpc]
  rw [show (notify (swap [⟨(5 : Nat), []⟩, ⟨5, []⟩, ⟨5, []⟩] 0 2) 0 : List (Elem Nat))
    = [⟨5, [0]⟩, ⟨5, []⟩, ⟨5, []⟩] from by decide]
  rw [down_eq_stop1 natLess (by decide)]
  decide

/-- C8 counterexample: with three equal-priority elements, the better child is
the right child (index 2, since the left child is not `Less` than the right),
and the node at 0 is less-than-or-equal to it (the child is not `Less` than
the node, first two conjuncts) — yet `down` does not stop and notify: it
swaps the tied elements and continues (third conjunct), contradicting the
claimed stop on "less-than-or-equal". -/
theorem c8_counterexample :
    pickChild natLess [⟨5, []⟩, ⟨5, []⟩, ⟨5, []⟩] 0 3 = 2 ∧
    lessIdx natLess [⟨5, []⟩, ⟨5, []⟩, ⟨5, []⟩] 2 0 = false ∧
    down natLess [⟨5, []⟩, ⟨5, []⟩, ⟨5, []⟩] 0 3 ≠
      notify [⟨5, []⟩, ⟨5, []⟩, ⟨5, []⟩] 0 := by
  refine ⟨by decide, by decide, ?_⟩
  rw [eval_down_ties]
  decide

/-- C8 (amended): during sift-down with both children inside the bound, the
children are compared against each other first: the selected child is the
right one exactly when the left is not `Less` than it; the node is then
compared only against that child, and sifting stops (with a notification of
the node's final position) exactly when the node is strictly `Less` than the
child — otherwise, ties included, the node is swapped with that child and the
process continues downward from it. -/
theorem c8_sift_down_step {α : Type} (less : α → α → Bool)
    (h : List (Elem α)) (i n : Nat) (hn : 2 * i + 2 < n) :
    (lessIdx less h (2 * i + 1) (2 * i + 2) = true →
      (lessIdx less h i (2 * i + 1) = true → down less h i n = notify h i) ∧
      (lessIdx less h i (2 * i + 1) = false → down less h i n =
        down less (notify (swap h i (2 * i + 1)) i) (2 * i + 1) n)) ∧
    (lessIdx less h (2 * i + 1) (2 * i + 2) = false →
      (lessIdx less h i (2 * i + 2) = true → down less h i n = notify h i) ∧
      (lessIdx less h i (2 * i + 2) = false → down less h i n =
        down less (notify (swap h i (2 * i + 2)) i) (2 * i + 2) n)) := by
  have hcase : ¬ n ≤ 2 * i + 1 := by omega
  constructor
  · intro h12
    have hpc : pickChild less h i n = 2 * i + 1 := by
      unfold pickChild
      rw [if_neg]
      intro hand
      rw [hand.2] at h12
      exact Bool.noConfusion h12
    constructor
    · intro hstop
      exact down_eq_stop2 less hcase (by rw [hpc]; exact hstop)
    · intro hgo
      have := down_eq_rec less hcase (by rw [hpc]; exact hgo)
      rw [hpc] at this
      exact this
  · intro h12
    have hpc : pickChild less h i n = 2 * i + 2 := by
      unfold pickChild
      rw [if_pos ⟨hn, h12⟩]
    constructor
    · intro hstop
      exact down_eq_stop2 less hcase (by rw [hpc]; exact hstop)
    · intro hgo
      have := down_eq_rec less hcase (by rw [hpc]; exact hgo)
      rw [hpc] at this
      exact this

theorem c8_sift_down_step_witness :
    down natLess [⟨5, []⟩, ⟨5, []⟩, ⟨5, []⟩] 0 3 =
      down natLess (notify (swap [⟨5, []⟩, ⟨5, []⟩, ⟨5, []⟩] 0 2) 0) 2 3 :=
  ((c8_sift_down_step natLess [⟨5, []⟩, ⟨5, []⟩, ⟨5, []⟩] 0 3 (by decide)).2
    (by decide)).2 (by decide)

end Prio

namespace Prio

theorem removeC_nat_eq {α : Type} (less : α → α → Bool) {q : Queue α} {k : Nat}
    {x : Elem α} (hk : q.h[k]? = some x) :
    removeC less q (k : Int) =
      if k = q.h.length - 1 then (.ok (x, ⟨q.h.take (q.h.length - 1)⟩), 0, 0)
      else
        ((.ok (x, ⟨((upC less (downC less (swap q.h k (q.h.length - 1)) k
            (q.h.length - 1)).1 k).1).take (q.h.length - 1)⟩)),
          (downC less (swap q.h k (q.h.length - 1)) k (q.h.length - 1)).2.1 +
            (upC less (downC less (swap q.h k (q.h.length - 1)) k
              (q.h.length - 1)).1 k).2.1,
          (downC less (swap q.h k (q.h.length - 1)) k (q.h.length - 1)).2.2 +
            (upC less (downC less (swap q.h k (q.h.length - 1)) k
              (q.h.length - 1)).1 k).2.2) := by
  unfold removeC
  rw [if_neg (by omega)]
  have ht : ((k : Int)).toNat = k := by omega
  rw [ht, hk]

/-- C10: removing the element at the last index performs no `Less` comparisons
and no `Index` callbacks (both instrumentation counters of `removeC` are 0),
returns the last element, and leaves every remaining element — position and
notification history alike — unchanged (`dropLast` of the backing sequence);
`remove` itself agrees. -/
theorem c10_remove_last_frame {α : Type} (less : α → α → Bool) (q : Queue α)
    (h0 : 0 < q.h.length) :
    ∃ x, q.h[q.h.length - 1]? = some x ∧
      removeC less q ((q.h.length - 1 : Nat) : Int) =
        (Outcome.ok (x, ⟨q.h.dropLast⟩), 0, 0) ∧
      remove less q ((q.h.length - 1 : Nat) : Int) =
        Outcome.ok (x, ⟨q.h.dropLast⟩) := by
  obtain ⟨x, hx⟩ : ∃ x, q.h[q.h.length - 1]? = some x := by
    rw [List.getElem?_eq_getElem (by omega)]
    exact ⟨_, rfl⟩
  refine ⟨x, hx, ?_, ?_⟩
  · rw [removeC_nat_eq less hx, if_pos rfl, ← List.dropLast_eq_take]
  · rw [remove_nat_eq less hx, if_pos rfl, ← List.dropLast_eq_take]

theorem c10_remove_last_frame_witness :
    ∃ x, (⟨[⟨1, [0]⟩, ⟨2, [1]⟩]⟩ : Queue Nat).h[
        (⟨[⟨1, [0]⟩, ⟨2, [1]⟩]⟩ : Queue Nat).h.length - 1]? = some x ∧
      removeC natLess (⟨[⟨1, [0]⟩, ⟨2, [1]⟩]⟩ : Queue Nat)
        (((⟨[⟨1, [0]⟩, ⟨2, [1]⟩]⟩ : Queue Nat).h.length - 1 : Nat) : Int) =
        (Outcome.ok (x, ⟨(⟨[⟨1, [0]⟩, ⟨2, [1]⟩]⟩ : Queue Nat).h.dropLast⟩), 0, 0) ∧
      remove natLess (⟨[⟨1, [0]⟩, ⟨2, [1]⟩]⟩ : Queue Nat)
        (((⟨[⟨1, [0]⟩, ⟨2, [1]⟩]⟩ : Queue Nat).h.length - 1 : Nat) : Int) =
        Outcome.ok (x, ⟨(⟨[⟨1, [0]⟩, ⟨2, [1]⟩]⟩ : Queue Nat).h.dropLast⟩) :=
  c10_remove_last_frame natLess ⟨[⟨1, [0]⟩, ⟨2, [1]⟩]⟩ (by decide)

end Prio
